import Mathlib

/-!
Verification of the placeholder-normalization and plural-grouping engine of
the `utas` string-resource converter (`src/parse.rs`).

Strings are modelled at the Unicode-scalar level as `List Char`; the byte
offsets used by the Rust `regex` crate are replaced by character offsets,
which is faithful because every offset the code manipulates falls on a
character boundary and only relative order matters.

The fixed regular expressions of the source are embedded as backtracking
pattern fragments with leftmost-first (Perl-style) semantics, which is the
match semantics of the Rust `regex` crate: applied at a fixed position, a
fragment returns every (consumed, remaining) split it can produce, in
backtracking priority order; the engine takes the first split at the
leftmost matching position.  `\d` is modelled on the ASCII digit range.
-/

namespace Utas

set_option maxRecDepth 100000

abbrev Str := List Char

/-- A regex fragment: all (consumed, rest) splits, in priority order. -/
abbrev RP := Str → List (Str × Str)

/-- A single character satisfying `q`. -/
def rchar (q : Char → Bool) : RP := fun s =>
  match s with
  | [] => []
  | c :: cs => if q c then [([c], cs)] else []

/-- Concatenation of two fragments. -/
def rseq (a b : RP) : RP := fun s =>
  (a s).flatMap (fun p => (b p.2).map (fun q => (p.1 ++ q.1, q.2)))

/-- Alternation, left branch preferred. -/
def ralt (a b : RP) : RP := fun s => a s ++ b s

/-- `x?` — greedy: matching is preferred over skipping. -/
def ropt (a : RP) : RP := fun s => a s ++ [([], s)]

/-- `\d+` — greedy: the longest digit run is preferred. -/
def rdigits : RP
  | [] => []
  | c :: cs =>
    if c.isDigit then
      ((rdigits cs).map (fun p => (c :: p.1, p.2))) ++ [([c], cs)]
    else []

/-- `$` — end of the haystack (the `regex` crate's `$` with multi-line off). -/
def rend : RP := fun s =>
  match s with
  | [] => [([], [])]
  | _ :: _ => []

/-- Flag characters `[-+0#,]`. -/
def flagChars : Str := ['-', '+', '0', '#', ',']

def isFlagChar (c : Char) : Bool := flagChars.contains c

/-- Type characters `[diufFeEgGxXoscpaA@]`. -/
def typeChars : Str :=
  ['d', 'i', 'u', 'f', 'F', 'e', 'E', 'g', 'G', 'x', 'X', 'o', 's', 'c',
   'p', 'a', 'A', '@']

def isTypeChar (c : Char) : Bool := typeChars.contains c

/-- `([-+0#,])?` -/
def flagsP : RP := ropt (rchar isFlagChar)

/-- `(\d+|\*)?` -/
def widthP : RP := ropt (ralt rdigits (rchar (· == '*')))

/-- `(\.(\d+|\*))?` -/
def precP : RP := ropt (rseq (rchar (· == '.')) (ralt rdigits (rchar (· == '*'))))

/-- `(hh?|ll?|L|z|j|t|q)?` -/
def lenP : RP :=
  ropt (ralt (rseq (rchar (· == 'h')) (ropt (rchar (· == 'h'))))
    (ralt (rseq (rchar (· == 'l')) (ropt (rchar (· == 'l'))))
      (ralt (rchar (· == 'L'))
        (ralt (rchar (· == 'z'))
          (ralt (rchar (· == 'j'))
            (ralt (rchar (· == 't')) (rchar (· == 'q'))))))))

/-- `PLACEHOLDER_FLAGS_WIDTH_PRECISION_LENGTH`. -/
def fwplP : RP := rseq flagsP (rseq widthP (rseq precP lenP))

/-- `(\d+\$)?` — the optional explicit positional parameter. -/
def paramP : RP := ropt (rseq rdigits (rchar (· == '$')))

/-- `PLACEHOLDER_REGEX`: `%` param flags width precision length type. -/
def placeholderP : RP :=
  rseq (rchar (· == '%')) (rseq paramP (rseq fwplP (rchar isTypeChar)))

/-- `NON_NUMBERED_PLACEHOLDER_REGEX`: like `placeholderP` but with no
positional-parameter group. -/
def nonNumberedP : RP :=
  rseq (rchar (· == '%')) (rseq fwplP (rchar isTypeChar))

/-- The rewriting pattern of `convert_twine_string_placeholder`:
`%((\d+\$)?flags width precision length)@`. -/
def twineP : RP :=
  rseq (rchar (· == '%')) (rseq (rseq paramP fwplP) (rchar (· == '@')))

/-- The two position-free arms of `SINGLE_PERCENT_REGEX`:
`[^%][%][^%] | [^%][%]$`.  The third arm `^[%]$` is anchored at the start of
the haystack and is treated separately (it fires exactly when the whole
haystack is `"%"`, where the first two arms cannot fire at all). -/
def singlePercentP : RP :=
  ralt (rseq (rchar (· != '%')) (rseq (rchar (· == '%')) (rchar (· != '%'))))
    (rseq (rchar (· != '%')) (rseq (rchar (· == '%')) rend))

/-- Leftmost match: scans positions left to right, and at the first position
where the fragment matches returns its first (highest-priority) split,
together with the text before the match and the text after it. -/
def findFrom (p : RP) : Str → Option (Str × Str × Str)
  | [] => (p []).head?.map (fun q => ([], q.1, q.2))
  | c :: cs =>
    match (p (c :: cs)).head? with
    | some q => some ([], q.1, q.2)
    | none => (findFrom p cs).map (fun t => (c :: t.1, t.2.1, t.2.2))

/-- Non-overlapping left-to-right iteration of matches, as in `find_iter`:
the list of (gap, match) pairs and the trailing text. -/
def findIter (p : RP) : Nat → Str → List (Str × Str) × Str
  | 0, s => ([], s)
  | fuel + 1, s =>
    match findFrom p s with
    | none => ([], s)
    | some (a, m, r) =>
      let t := findIter p fuel r
      ((a, m) :: t.1, t.2)

/-- `Regex::replace_all` with a stateful callback, as used by the source:
the callback receives the running state, the absolute start offset of the
match and the matched text, and returns the replacement and the next state.
The fuel is the haystack length; every pattern used here consumes at least
one character per match, so the fuel never runs out. -/
def replaceAllGo {σ : Type} (p : RP) (f : σ → Nat → Str → Str × σ) :
    Nat → σ → Nat → Str → Str
  | 0, _, _, s => s
  | fuel + 1, st, pos, s =>
    match findFrom p s with
    | none => s
    | some (a, m, r) =>
      let rep := f st (pos + a.length) m
      a ++ rep.1 ++ replaceAllGo p f fuel rep.2 (pos + a.length + m.length) r

def replaceAll {σ : Type} (p : RP) (f : σ → Nat → Str → Str × σ)
    (st : σ) (s : Str) : Str :=
  replaceAllGo p f s.length st 0 s

/-- `str::replace` with a single-character pattern. -/
def replaceChar (c : Char) (rep : Str) : Str → Str
  | [] => []
  | x :: xs =>
    if x == c then rep ++ replaceChar c rep xs else x :: replaceChar c rep xs

/-- `maybe_escape_characters`: if the string contains `&` or `<`, replace
every `&` by `&amp;` and then every `<` by `&lt;`; otherwise return it
unchanged. -/
def maybe_escape_characters (input : Str) : Str :=
  if input.contains '&' || input.contains '<' then
    replaceChar '<' ("&lt;".data) (replaceChar '&' ("&amp;".data) input)
  else input

/-- `str::replace('%', "%%")` applied to a matched window. -/
def doublePct (m : Str) : Str :=
  m.flatMap (fun c => if c == '%' then ['%', '%'] else [c])

/-- `PLACEHOLDER_REGEX_RE.find_at(input, i)` produces a match starting
exactly at `i` iff the placeholder fragment matches at offset `i`. -/
def isPlaceholderAt (input : Str) (i : Nat) : Bool :=
  !(placeholderP (input.drop i)).isEmpty

/-- `percent_start`: offset, within the matched window, of its `%`. -/
def percentIdx (m : Str) : Nat := (m.takeWhile (· != '%')).length

/-- `maybe_replace_single_percent_with_double_percent`: every window match
of `SINGLE_PERCENT_REGEX` whose `%` does not begin a placeholder match in
the original input has its `%` doubled.  The anchored arm `^[%]$` is the
separate first case: it matches iff the whole haystack is `"%"`, and there
the other two arms cannot match. -/
def maybe_replace_single_percent_with_double_percent (input : Str) : Str :=
  if input = ['%'] then
    if isPlaceholderAt input 0 then input else doublePct input
  else
    replaceAll singlePercentP
      (fun _ pos m =>
        (if isPlaceholderAt input (pos + percentIdx m) then m else doublePct m,
         ()))
      () input

/-- `convert_twine_string_placeholder`: every match `%…@` of the twine
pattern is replaced by `%${1}s`, i.e. the match with its final `@` replaced
by `s` (group 1 is everything between the `%` and the `@`). -/
def convert_twine_string_placeholder (input : Str) : Str :=
  replaceAll twineP (fun _ _ m => (m.dropLast ++ ['s'], ())) () input

/-- Decimal digit characters. -/
def digitChar : Nat → Char
  | 0 => '0' | 1 => '1' | 2 => '2' | 3 => '3' | 4 => '4'
  | 5 => '5' | 6 => '6' | 7 => '7' | 8 => '8' | _ => '9'

def natCharsGo : Nat → Nat → Str → Str
  | 0, _, acc => acc
  | fuel + 1, n, acc =>
    if n < 10 then digitChar n :: acc
    else natCharsGo fuel (n / 10) (digitChar (n % 10) :: acc)

/-- Decimal rendering of a counter value, as produced by `format!("%{}$", i)`. -/
def natChars (n : Nat) : Str := natCharsGo (n + 1) n []

/-- `find_iter(...).count()` for the non-numbered placeholder pattern. -/
def nonNumberedCount (input : Str) : Nat :=
  (findIter nonNumberedP input.length input).1.length

/-- `maybe_add_positional_numbers`: if at most one directive lacks a
positional parameter the input is returned unchanged; otherwise each match
of the non-numbered pattern is rewritten to `%{i}${group1}` with a counter
`i` starting at 1 (the Rust closure increments `i` before using it; group 1
is the whole match minus its leading `%`). -/
def maybe_add_positional_numbers (input : Str) : Str :=
  if nonNumberedCount input ≤ 1 then input
  else
    replaceAll nonNumberedP
      (fun i _ m => ('%' :: natChars (i + 1) ++ '$' :: m.tail, i + 1))
      0 input

/-- The pure body of `parse_localized_string_value`: escape, double lone
percents, and — only when the full placeholder pattern matches somewhere —
convert `@`-directives and insert positional numbers. -/
def normalize_value (raw_value : Str) : Str :=
  let v1 := maybe_escape_characters raw_value
  let v2 := maybe_replace_single_percent_with_double_percent v1
  if (findFrom placeholderP v2).isSome then
    maybe_add_positional_numbers (convert_twine_string_placeholder v2)
  else v2

/-- `parse_localized_string_value` returns a `Result`, but its body contains
no fallible operation (the patterns are fixed constants whose compilation
cannot fail at runtime): it is `Ok` of the pure transformation. -/
def parse_localized_string_value (raw_value : Str) : Except String Str :=
  Except.ok (normalize_value raw_value)

/-- `PluralValue`. -/
structure PluralValue where
  quantity : Str
  text : Str
deriving DecidableEq

/-- `StringValue`. -/
inductive StringValue where
  | Single : Str → StringValue
  | Plural : List PluralValue → StringValue
deriving DecidableEq

/-- `LocalizedString`. -/
structure LocalizedString where
  language_code : Str
  value : StringValue
deriving DecidableEq

/-- `Key`. -/
structure Key where
  name : Str
  localizations : List LocalizedString
deriving DecidableEq

instance : Inhabited PluralValue := ⟨⟨[], []⟩⟩
instance : Inhabited StringValue := ⟨StringValue.Single []⟩
instance : Inhabited LocalizedString := ⟨⟨[], StringValue.Single []⟩⟩
instance : Inhabited Key := ⟨⟨[], []⟩⟩

/-- `str::split_once`: split at the first occurrence of `sep`. -/
def split_once (sep : Char) : Str → Option (Str × Str)
  | [] => none
  | x :: xs =>
    if x == sep then some ([], xs)
    else (split_once sep xs).map (fun p => (x :: p.1, p.2))

/-- The loop of `key_from_locale_single_value_map`: entries with an absent
value are skipped; the rest are normalized and kept in order. -/
def singleGo : List (Str × Option Str) → Except String (List LocalizedString)
  | [] => Except.ok []
  | (locale_name, vopt) :: rest =>
    match vopt with
    | none => singleGo rest
    | some sv =>
      match parse_localized_string_value sv with
      | Except.error e => Except.error e
      | Except.ok t =>
        match singleGo rest with
        | Except.error e => Except.error e
        | Except.ok l =>
          Except.ok (LocalizedString.mk locale_name (StringValue.Single t) :: l)

def key_from_locale_single_value_map (name : Str)
    (raw_localizations : List (Str × Option Str)) : Except String Key :=
  (singleGo raw_localizations).map (fun l => Key.mk name l)

/-- `quantities.push(..)` on an entry, guarded by the
`let StringValue::Plural .. else continue` pattern of the source: an entry
whose value is not `Plural` is left untouched. -/
def pushQuantity (L : LocalizedString) (pv : PluralValue) : LocalizedString :=
  match L.value with
  | StringValue.Plural qs =>
    LocalizedString.mk L.language_code (StringValue.Plural (qs ++ [pv]))
  | StringValue.Single _ => L

/-- `IndexMap::entry(..).or_insert(..)` followed by the push: look up the
locale; if present, push onto it; otherwise append a fresh entry (with the
empty `Plural` list the source inserts, then the push) at the end. -/
def upsert : List (Str × LocalizedString) → Str → PluralValue →
    List (Str × LocalizedString)
  | [], loc, pv =>
    [(loc, pushQuantity (LocalizedString.mk loc (StringValue.Plural [])) pv)]
  | (k, L) :: rest, loc, pv =>
    if k = loc then (k, pushQuantity L pv) :: rest
    else (k, L) :: upsert rest loc pv

/-- The loop of `key_from_locale_plural_value_map`: entries with an absent
value, and entries whose compound tag does not split on `':'`, are skipped;
the rest are grouped into the insertion-ordered locale map. -/
def pluralGo : List (Str × Option Str) → List (Str × LocalizedString) →
    Except String (List (Str × LocalizedString))
  | [], acc => Except.ok acc
  | (tag, vopt) :: rest, acc =>
    match vopt with
    | none => pluralGo rest acc
    | some sv =>
      match split_once ':' tag with
      | none => pluralGo rest acc
      | some (loc, qty) =>
        match parse_localized_string_value sv with
        | Except.error e => Except.error e
        | Except.ok t => pluralGo rest (upsert acc loc (PluralValue.mk qty t))

def key_from_locale_plural_value_map (name : Str)
    (raw_localizations : List (Str × Option Str)) : Except String Key :=
  (pluralGo raw_localizations []).map
    (fun acc => Key.mk name (acc.map (fun e => e.2)))

/-- `key_from_locale_value_map`: a key is routed to plural construction iff
some raw locale tag contains `':'`. -/
def key_from_locale_value_map (name : Str)
    (raw_localizations : List (Str × Option Str)) : Except String Key :=
  if raw_localizations.any (fun e => e.1.contains ':') then
    key_from_locale_plural_value_map name raw_localizations
  else
    key_from_locale_single_value_map name raw_localizations

/-! ### Analysis-side definitions

The definitions in this block are not translations of source functions: they
are the vocabulary in which the verified properties are stated —
well-formedness predicates for pattern fragments, character classes, and
spec-level descriptions (following the specification's wording) of the
rewriting loops and of the plural grouping, to be compared with the
source-derived functions above. -/

/-- Soundness: every split produced by a fragment partitions the input. -/
def WFp (p : RP) : Prop := ∀ s q, q ∈ p s → q.1 ++ q.2 = s

/-- Continuation irrelevance: a split that consumed `c` keeps being produced
whatever text follows `c`.  This holds for every fragment used here except
`rend` (which is not part of the placeholder patterns). -/
def ExtP (p : RP) : Prop :=
  ∀ c r r', (c, r) ∈ p (c ++ r) → (c, r') ∈ p (c ++ r')

/-- Class bound on the characters a fragment can consume. -/
def ConsOK (g : Char → Bool) (p : RP) : Prop :=
  ∀ s q, q ∈ p s → ∀ x ∈ q.1, g x = true

/-- Characters that can occur strictly between the `%` and the type
character of a directive (positional digits and `$`, flags, width,
precision, length). -/
def midChars : Str :=
  ['$', '-', '+', '0', '#', ',', '*', '.', 'h', 'l', 'L', 'z', 'j', 't', 'q']

def midOK (c : Char) : Bool := c.isDigit || midChars.contains c

/-- Characters consumable by the flags/width/precision/length groups
(no `$`). -/
def fwplChars : Str :=
  ['-', '+', '0', '#', ',', '*', '.', 'h', 'l', 'L', 'z', 'j', 't', 'q']

def fwplOK (c : Char) : Bool := c.isDigit || fwplChars.contains c

/-- Spec-level view of a stateful `replace_all`: thread the callback over an
already-computed (gap, match) list. -/
def joinIter {σ : Type} (f : σ → Nat → Str → Str × σ) :
    σ → Nat → List (Str × Str) → Str → Str
  | _, _, [], t => t
  | st, pos, (a, m) :: rest, t =>
    let rep := f st (pos + a.length) m
    a ++ rep.1 ++ joinIter f rep.2 (pos + a.length + m.length) rest t

/-- Spec-level positional numbering: the k-th listed match (counting from
`k₀`) is rewritten with the explicit index injected right after its leading
`%`, consecutively and with no gaps. -/
def numberMatches : Nat → List (Str × Str) → Str → Str
  | _, [], t => t
  | k, (a, m) :: rest, t =>
    a ++ ('%' :: natChars k ++ '$' :: m.tail) ++ numberMatches (k + 1) rest t

/-- Spec-level plural quantities of one locale: the quantity tokens of the
splittable entries with a value for that locale, in source order. -/
def pluralSpecQuantities (loc : Str) : List (Str × Option Str) → List PluralValue
  | [] => []
  | (tag, vopt) :: rest =>
    match vopt, split_once ':' tag with
    | some sv, some (l, q) =>
      if l = loc then
        PluralValue.mk q (normalize_value sv) :: pluralSpecQuantities loc rest
      else pluralSpecQuantities loc rest
    | _, _ => pluralSpecQuantities loc rest

/-- First-seen order of the locales of splittable entries with a value,
excluding locales already in `seen`. -/
def firstSeenNew (seen : List Str) : List (Str × Option Str) → List Str
  | [] => []
  | (tag, vopt) :: rest =>
    match vopt, split_once ':' tag with
    | some _, some (l, _) =>
      if l ∈ seen then firstSeenNew seen rest
      else l :: firstSeenNew (l :: seen) rest
    | _, _ => firstSeenNew seen rest

/-- Append further quantities to a (plural) localized string. -/
def appendQuantities (L : LocalizedString) (qs : List PluralValue) :
    LocalizedString :=
  match L.value with
  | StringValue.Plural q0 =>
    LocalizedString.mk L.language_code (StringValue.Plural (q0 ++ qs))
  | StringValue.Single t =>
    LocalizedString.mk L.language_code (StringValue.Single t)

/-- Spec-level simple-key construction: entries with a value, in order. -/
def singleSpec (raw : List (Str × Option Str)) : List LocalizedString :=
  raw.filterMap (fun e =>
    e.2.map (fun sv =>
      LocalizedString.mk e.1 (StringValue.Single (normalize_value sv))))

/-- Spec-level plural-key construction: one localized string per first-seen
locale, with that locale's quantities in source order. -/
def pluralSpec (raw : List (Str × Option Str)) : List LocalizedString :=
  (firstSeenNew [] raw).map (fun loc =>
    LocalizedString.mk loc (StringValue.Plural (pluralSpecQuantities loc raw)))

/-- Well-formedness of the plural accumulator: every entry is a `Plural`
localized string keyed by its own language code. -/
def accShape (acc : List (Str × LocalizedString)) : Prop :=
  ∀ e ∈ acc, ∃ qs, e.2 = LocalizedString.mk e.1 (StringValue.Plural qs)

/-- An entry a plural key retains: a value is present and the tag splits. -/
def keepPlural (e : Str × Option Str) : Bool :=
  e.2.isSome && (split_once ':' e.1).isSome

/-- An entry a simple key retains: a value is present. -/
def keepSingle (e : Str × Option Str) : Bool := e.2.isSome

/-! ### Basic facts about the pattern-fragment embedding -/

theorem mem_rchar {b : Char → Bool} {s : Str} {q : Str × Str} :
    q ∈ rchar b s ↔ ∃ c cs, s = c :: cs ∧ b c = true ∧ q = ([c], cs) := by
  cases s with
  | nil => simp [rchar]
  | cons c cs =>
    constructor
    · intro h
      simp only [rchar] at h
      by_cases hb : b c = true
      · rw [if_pos hb] at h
        simp only [List.mem_singleton] at h
        exact ⟨c, cs, rfl, hb, h⟩
      · rw [if_neg hb] at h
        simp at h
    · rintro ⟨c', cs', heq, hb', rfl⟩
      injection heq with h1 h2
      subst h1; subst h2
      simp only [rchar, if_pos hb']
      simp

theorem mem_rseq {a b : RP} {s : Str} {q : Str × Str} :
    q ∈ rseq a b s ↔
      ∃ c₁ r₁ c₂ r₂, (c₁, r₁) ∈ a s ∧ (c₂, r₂) ∈ b r₁ ∧ q = (c₁ ++ c₂, r₂) := by
  simp only [rseq, List.mem_flatMap, List.mem_map]
  constructor
  · rintro ⟨⟨c₁, r₁⟩, h1, ⟨c₂, r₂⟩, h2, rfl⟩
    exact ⟨c₁, r₁, c₂, r₂, h1, h2, rfl⟩
  · rintro ⟨c₁, r₁, c₂, r₂, h1, h2, rfl⟩
    exact ⟨⟨c₁, r₁⟩, h1, ⟨c₂, r₂⟩, h2, rfl⟩

theorem mem_ralt {a b : RP} {s : Str} {q : Str × Str} :
    q ∈ ralt a b s ↔ q ∈ a s ∨ q ∈ b s := by
  simp [ralt]

theorem mem_ropt {a : RP} {s : Str} {q : Str × Str} :
    q ∈ ropt a s ↔ q ∈ a s ∨ q = ([], s) := by
  simp [ropt]

theorem mem_rend {s : Str} {q : Str × Str} :
    q ∈ rend s ↔ s = [] ∧ q = ([], []) := by
  cases s <;> simp [rend]

theorem mem_rdigits {s : Str} {q : Str × Str} :
    q ∈ rdigits s ↔
      s = q.1 ++ q.2 ∧ q.1 ≠ [] ∧ ∀ x ∈ q.1, x.isDigit = true := by
  induction s generalizing q with
  | nil =>
    rcases q with ⟨c₁, r₁⟩
    cases c₁ <;> simp [rdigits]
  | cons c cs ih =>
    by_cases hd : c.isDigit = true
    · constructor
      · intro h
        simp only [rdigits, if_pos hd, List.mem_append, List.mem_map,
          List.mem_singleton] at h
        rcases h with ⟨p, hp, rfl⟩ | rfl
        · obtain ⟨h1, h2, h3⟩ := ih.mp hp
          refine ⟨by simp [h1], by simp, ?_⟩
          intro x hx
          rcases List.mem_cons.mp hx with rfl | hx
          · exact hd
          · exact h3 x hx
        · refine ⟨rfl, by simp, ?_⟩
          intro x hx
          simp only [List.mem_singleton] at hx
          subst hx
          exact hd
      · rintro ⟨h1, h2, h3⟩
        rcases q with ⟨c₁, r₁⟩
        rcases c₁ with _ | ⟨x, xs⟩
        · simp at h2
        · simp only [List.cons_append] at h1
          injection h1 with e1 e2
          subst e1
          simp only [rdigits, if_pos hd, List.mem_append, List.mem_map,
            List.mem_singleton]
          rcases xs with _ | ⟨y, ys⟩
          · right
            simp only [List.nil_append] at e2
            simp [e2]
          · left
            refine ⟨(y :: ys, r₁), ih.mpr ⟨e2, by simp, ?_⟩, rfl⟩
            intro z hz
            exact h3 z (List.mem_cons_of_mem _ hz)
    · constructor
      · intro h
        simp [rdigits, if_neg hd] at h
      · rintro ⟨h1, h2, h3⟩
        rcases q with ⟨c₁, r₁⟩
        rcases c₁ with _ | ⟨x, xs⟩
        · simp at h2
        · simp only [List.cons_append] at h1
          injection h1 with e1 _
          subst e1
          exact absurd (h3 c (by simp)) (by simpa using hd)

theorem wf_rchar {b : Char → Bool} : WFp (rchar b) := by
  rintro s q h
  obtain ⟨c, cs, rfl, _, rfl⟩ := mem_rchar.mp h
  rfl

theorem wf_rseq {a b : RP} (ha : WFp a) (hb : WFp b) : WFp (rseq a b) := by
  rintro s q h
  obtain ⟨c₁, r₁, c₂, r₂, h1, h2, rfl⟩ := mem_rseq.mp h
  have e1 := ha s (c₁, r₁) h1
  have e2 := hb r₁ (c₂, r₂) h2
  simp only at e1 e2 ⊢
  rw [List.append_assoc, e2, e1]

theorem wf_ralt {a b : RP} (ha : WFp a) (hb : WFp b) : WFp (ralt a b) := by
  rintro s q h
  rcases mem_ralt.mp h with h | h
  · exact ha s q h
  · exact hb s q h

theorem wf_ropt {a : RP} (ha : WFp a) : WFp (ropt a) := by
  rintro s q h
  rcases mem_ropt.mp h with h | rfl
  · exact ha s q h
  · rfl

theorem wf_rend : WFp rend := by
  rintro s q h
  obtain ⟨rfl, rfl⟩ := mem_rend.mp h
  rfl

theorem wf_rdigits : WFp rdigits := by
  rintro s q h
  exact (mem_rdigits.mp h).1.symm

theorem wf_flagsP : WFp flagsP := wf_ropt wf_rchar
theorem wf_widthP : WFp widthP := wf_ropt (wf_ralt wf_rdigits wf_rchar)
theorem wf_precP : WFp precP :=
  wf_ropt (wf_rseq wf_rchar (wf_ralt wf_rdigits wf_rchar))
theorem wf_lenP : WFp lenP :=
  wf_ropt (wf_ralt (wf_rseq wf_rchar (wf_ropt wf_rchar))
    (wf_ralt (wf_rseq wf_rchar (wf_ropt wf_rchar))
      (wf_ralt wf_rchar (wf_ralt wf_rchar (wf_ralt wf_rchar
        (wf_ralt wf_rchar wf_rchar))))))
theorem wf_fwplP : WFp fwplP :=
  wf_rseq wf_flagsP (wf_rseq wf_widthP (wf_rseq wf_precP wf_lenP))
theorem wf_paramP : WFp paramP := wf_ropt (wf_rseq wf_rdigits wf_rchar)
theorem wf_placeholderP : WFp placeholderP :=
  wf_rseq wf_rchar (wf_rseq wf_paramP (wf_rseq wf_fwplP wf_rchar))
theorem wf_nonNumberedP : WFp nonNumberedP :=
  wf_rseq wf_rchar (wf_rseq wf_fwplP wf_rchar)
theorem wf_twineP : WFp twineP :=
  wf_rseq wf_rchar (wf_rseq (wf_rseq wf_paramP wf_fwplP) wf_rchar)
theorem wf_singlePercentP : WFp singlePercentP :=
  wf_ralt (wf_rseq wf_rchar (wf_rseq wf_rchar wf_rchar))
    (wf_rseq wf_rchar (wf_rseq wf_rchar wf_rend))

/-! ### Continuation irrelevance and character-class bounds -/

theorem ext_rchar {b : Char → Bool} : ExtP (rchar b) := by
  rintro c r r' h
  obtain ⟨c', cs, heq, hb, hq⟩ := mem_rchar.mp h
  injection hq with e1 e2
  subst e1; subst e2
  exact mem_rchar.mpr ⟨c', r', rfl, hb, rfl⟩

theorem ext_rseq {a b : RP} (wa : WFp a) (ea : ExtP a) (eb : ExtP b) :
    ExtP (rseq a b) := by
  rintro c r r' h
  obtain ⟨c₁, r₁, c₂, r₂, h1, h2, hq⟩ := mem_rseq.mp h
  injection hq with e1 e2
  subst e1; subst e2
  have hr₁ : r₁ = c₂ ++ r := by
    have hwa := wa _ _ h1
    simp only at hwa
    rw [List.append_assoc] at hwa
    exact List.append_cancel_left hwa
  subst hr₁
  have h1' : (c₁, c₂ ++ r') ∈ a (c₁ ++ (c₂ ++ r')) := by
    apply ea
    have := h1
    rwa [List.append_assoc] at this
  have h2' : (c₂, r') ∈ b (c₂ ++ r') := eb c₂ r r' h2
  refine mem_rseq.mpr ⟨c₁, c₂ ++ r', c₂, r', ?_, h2', rfl⟩
  rwa [List.append_assoc]

theorem ext_ralt {a b : RP} (ea : ExtP a) (eb : ExtP b) : ExtP (ralt a b) := by
  rintro c r r' h
  rcases mem_ralt.mp h with h | h
  · exact mem_ralt.mpr (Or.inl (ea _ _ _ h))
  · exact mem_ralt.mpr (Or.inr (eb _ _ _ h))

theorem ext_ropt {a : RP} (ea : ExtP a) : ExtP (ropt a) := by
  rintro c r r' h
  rcases mem_ropt.mp h with h | hq
  · exact mem_ropt.mpr (Or.inl (ea _ _ _ h))
  · injection hq with e1 e2
    subst e1
    exact mem_ropt.mpr (Or.inr rfl)

theorem ext_rdigits : ExtP rdigits := by
  rintro c r r' h
  obtain ⟨_, h2, h3⟩ := mem_rdigits.mp h
  exact mem_rdigits.mpr ⟨rfl, h2, h3⟩

theorem ext_flagsP : ExtP flagsP := ext_ropt ext_rchar
theorem ext_widthP : ExtP widthP := ext_ropt (ext_ralt ext_rdigits ext_rchar)
theorem ext_precP : ExtP precP :=
  ext_ropt (ext_rseq wf_rchar ext_rchar (ext_ralt ext_rdigits ext_rchar))
theorem ext_lenP : ExtP lenP :=
  ext_ropt (ext_ralt (ext_rseq wf_rchar ext_rchar (ext_ropt ext_rchar))
    (ext_ralt (ext_rseq wf_rchar ext_rchar (ext_ropt ext_rchar))
      (ext_ralt ext_rchar (ext_ralt ext_rchar (ext_ralt ext_rchar
        (ext_ralt ext_rchar ext_rchar))))))
theorem ext_fwplP : ExtP fwplP :=
  ext_rseq wf_flagsP ext_flagsP
    (ext_rseq wf_widthP ext_widthP (ext_rseq wf_precP ext_precP ext_lenP))
theorem ext_paramP : ExtP paramP :=
  ext_ropt (ext_rseq wf_rdigits ext_rdigits ext_rchar)
theorem ext_placeholderP : ExtP placeholderP :=
  ext_rseq wf_rchar ext_rchar
    (ext_rseq wf_paramP ext_paramP (ext_rseq wf_fwplP ext_fwplP ext_rchar))
theorem ext_twineP : ExtP twineP :=
  ext_rseq wf_rchar ext_rchar
    (ext_rseq (wf_rseq wf_paramP wf_fwplP)
      (ext_rseq wf_paramP ext_paramP ext_fwplP) ext_rchar)
theorem ext_nonNumberedP : ExtP nonNumberedP :=
  ext_rseq wf_rchar ext_rchar (ext_rseq wf_fwplP ext_fwplP ext_rchar)

theorem mem_of_containsb {l : Str} {c : Char} (h : l.contains c = true) :
    c ∈ l := by
  simpa using h

/-- Character in a class described by a single `==` test. -/
theorem beq_class {g : Char → Bool} {lit : Char} (hg : g lit = true) :
    ∀ c, (c == lit) = true → g c = true := by
  intro c h
  rw [eq_of_beq h]
  exact hg

/-- Character in a class described by list containment. -/
theorem contains_class {l : Str} {g : Char → Bool} (hg : l.all g = true) :
    ∀ c, l.contains c = true → g c = true := by
  intro c h
  exact List.all_eq_true.mp hg c (mem_of_containsb h)

theorem digit_fwplOK : ∀ c : Char, c.isDigit = true → fwplOK c = true := by
  intro c h
  simp [fwplOK, h]

theorem digit_midOK : ∀ c : Char, c.isDigit = true → midOK c = true := by
  intro c h
  simp [midOK, h]

theorem fwplOK_midOK : ∀ c : Char, fwplOK c = true → midOK c = true := by
  intro c h
  rcases (Bool.or_eq_true _ _).mp h with h | h
  · exact digit_midOK c h
  · exact contains_class (by decide : fwplChars.all midOK = true) c h

theorem consok_rchar {b g : Char → Bool} (h : ∀ c, b c = true → g c = true) :
    ConsOK g (rchar b) := by
  rintro s q hq x hx
  obtain ⟨c, cs, rfl, hb, rfl⟩ := mem_rchar.mp hq
  simp only [List.mem_singleton] at hx
  subst hx
  exact h x hb

theorem consok_rseq {a b : RP} {g : Char → Bool}
    (ha : ConsOK g a) (hb : ConsOK g b) : ConsOK g (rseq a b) := by
  rintro s q hq x hx
  obtain ⟨c₁, r₁, c₂, r₂, h1, h2, rfl⟩ := mem_rseq.mp hq
  simp only [List.mem_append] at hx
  rcases hx with hx | hx
  · exact ha _ _ h1 x hx
  · exact hb _ _ h2 x hx

theorem consok_ralt {a b : RP} {g : Char → Bool}
    (ha : ConsOK g a) (hb : ConsOK g b) : ConsOK g (ralt a b) := by
  rintro s q hq x hx
  rcases mem_ralt.mp hq with h | h
  · exact ha _ _ h x hx
  · exact hb _ _ h x hx

theorem consok_ropt {a : RP} {g : Char → Bool} (ha : ConsOK g a) :
    ConsOK g (ropt a) := by
  rintro s q hq x hx
  rcases mem_ropt.mp hq with h | rfl
  · exact ha _ _ h x hx
  · simp at hx

theorem consok_rend {g : Char → Bool} : ConsOK g rend := by
  rintro s q hq x hx
  obtain ⟨rfl, rfl⟩ := mem_rend.mp hq
  simp at hx

theorem consok_rdigits {g : Char → Bool}
    (h : ∀ c : Char, c.isDigit = true → g c = true) : ConsOK g rdigits := by
  rintro s q hq x hx
  exact h x ((mem_rdigits.mp hq).2.2 x hx)

theorem consok_flagsP : ConsOK fwplOK flagsP :=
  consok_ropt (consok_rchar (contains_class (by decide)))
theorem consok_widthP : ConsOK fwplOK widthP :=
  consok_ropt (consok_ralt (consok_rdigits digit_fwplOK)
    (consok_rchar (beq_class (by decide))))
theorem consok_precP : ConsOK fwplOK precP :=
  consok_ropt (consok_rseq (consok_rchar (beq_class (by decide)))
    (consok_ralt (consok_rdigits digit_fwplOK)
      (consok_rchar (beq_class (by decide)))))
theorem consok_lenP : ConsOK fwplOK lenP :=
  consok_ropt (consok_ralt
    (consok_rseq (consok_rchar (beq_class (by decide)))
      (consok_ropt (consok_rchar (beq_class (by decide)))))
    (consok_ralt
      (consok_rseq (consok_rchar (beq_class (by decide)))
        (consok_ropt (consok_rchar (beq_class (by decide)))))
      (consok_ralt (consok_rchar (beq_class (by decide)))
        (consok_ralt (consok_rchar (beq_class (by decide)))
          (consok_ralt (consok_rchar (beq_class (by decide)))
            (consok_ralt (consok_rchar (beq_class (by decide)))
              (consok_rchar (beq_class (by decide)))))))))
theorem consok_fwplP : ConsOK fwplOK fwplP :=
  consok_rseq consok_flagsP
    (consok_rseq consok_widthP (consok_rseq consok_precP consok_lenP))
theorem consok_paramP : ConsOK midOK paramP :=
  consok_ropt (consok_rseq (consok_rdigits digit_midOK)
    (consok_rchar (beq_class (by decide))))

theorem fwplP_midOK : ConsOK midOK fwplP := by
  rintro s q hq x hx
  exact fwplOK_midOK x (consok_fwplP s q hq x hx)

theorem typeChar_not_midOK : ∀ c : Char, isTypeChar c = true → midOK c = false := by
  intro c h
  have hm : c ∈ typeChars := mem_of_containsb h
  simpa using List.all_eq_true.mp
    (by decide : typeChars.all (fun x => !(midOK x)) = true) c hm

theorem typeChar_ne_pct : ∀ c : Char, isTypeChar c = true → c ≠ '%' := by
  intro c h e
  subst e
  exact absurd h (by decide)

theorem typeChar_not_digit : ∀ c : Char, isTypeChar c = true → c.isDigit = false := by
  intro c h
  have hm : c ∈ typeChars := mem_of_containsb h
  simpa using List.all_eq_true.mp
    (by decide : typeChars.all (fun x => !(x.isDigit)) = true) c hm

theorem typeChar_ne_dollar : ∀ c : Char, isTypeChar c = true → c ≠ '$' := by
  intro c h e
  subst e
  exact absurd h (by decide)

theorem midOK_ne_pct : ∀ c : Char, midOK c = true → c ≠ '%' := by
  intro c h e
  subst e
  exact absurd h (by decide)

theorem fwplOK_ne_dollar : ∀ c : Char, fwplOK c = true → c ≠ '$' := by
  intro c h e
  subst e
  exact absurd h (by decide)

/-! ### Shapes of placeholder matches -/

theorem shape_twineP {s c r : Str} (h : (c, r) ∈ twineP s) :
    s = c ++ r ∧
      ∃ mid, c = '%' :: mid ++ ['@'] ∧ ∀ x ∈ mid, midOK x = true := by
  have hwf := (wf_twineP s (c, r) h).symm
  obtain ⟨c₁, r₁, c₂, r₂, hA, hB, hq⟩ := mem_rseq.mp h
  obtain ⟨c₃, r₃, c₄, r₄, hC, hD, hq'⟩ := mem_rseq.mp hB
  obtain ⟨ch, cs, hs, hpct, hq₁⟩ := mem_rchar.mp hA
  obtain ⟨ch2, cs2, hr₃, hat, hq₂⟩ := mem_rchar.mp hD
  injection hq with ec er
  injection hq' with ec' er'
  injection hq₁ with ec₁ er₁
  injection hq₂ with ec₂ er₂
  refine ⟨hwf, c₃, ?_, ?_⟩
  · rw [ec, ec₁, ec', ec₂, eq_of_beq hpct, eq_of_beq hat]
    simp
  · intro x hx
    exact consok_rseq consok_paramP fwplP_midOK _ _ hC x hx

theorem shape_nonNumberedP {s c r : Str} (h : (c, r) ∈ nonNumberedP s) :
    s = c ++ r ∧
      ∃ body ty, c = '%' :: body ++ [ty] ∧ (∀ x ∈ body, fwplOK x = true) ∧
        isTypeChar ty = true ∧ (ty = '@' → (c, r) ∈ twineP s) := by
  have hwf := (wf_nonNumberedP s (c, r) h).symm
  obtain ⟨c₁, r₁, c₂, r₂, hA, hB, hq⟩ := mem_rseq.mp h
  obtain ⟨c₃, r₃, c₄, r₄, hC, hD, hq'⟩ := mem_rseq.mp hB
  obtain ⟨ch, cs, hs, hpct, hq₁⟩ := mem_rchar.mp hA
  obtain ⟨ch2, cs2, hr₃, hat, hq₂⟩ := mem_rchar.mp hD
  injection hq with ec er
  injection hq' with ec' er'
  injection hq₁ with ec₁ er₁
  injection hq₂ with ec₂ er₂
  refine ⟨hwf, c₃, ch2, ?_, ?_, ?_, ?_⟩
  · rw [ec, ec₁, ec', ec₂, eq_of_beq hpct]
    simp
  · intro x hx
    exact consok_fwplP _ _ hC x hx
  · exact hat
  · intro hty
    refine mem_rseq.mpr ⟨c₁, r₁, c₂, r₂, hA, ?_, by rw [ec, er]⟩
    refine mem_rseq.mpr ⟨c₃, r₃, c₄, r₄, ?_, ?_, by rw [ec', er']⟩
    · refine mem_rseq.mpr ⟨[], r₁, c₃, r₃, mem_ropt.mpr (Or.inr rfl), hC, by simp⟩
    · refine mem_rchar.mpr ⟨ch2, cs2, hr₃, ?_, by rw [ec₂, er₂]⟩
      rw [hty]
      rfl

theorem twineP_sub_placeholderP {s c r : Str} (h : (c, r) ∈ twineP s) :
    placeholderP s ≠ [] := by
  obtain ⟨c₁, r₁, c₂, r₂, hA, hB, _⟩ := mem_rseq.mp h
  obtain ⟨c₃, r₃, c₄, r₄, hC, hD, hq'⟩ := mem_rseq.mp hB
  obtain ⟨cp, rp, cf, rf, hP, hF, hq''⟩ := mem_rseq.mp hC
  obtain ⟨ch2, cs2, hr₃, hat, hq₂⟩ := mem_rchar.mp hD
  injection hq'' with ec'' er''
  subst er''
  refine List.ne_nil_of_mem
    (show (c₁ ++ (cp ++ (cf ++ c₄)), r₄) ∈ placeholderP s from ?_)
  refine mem_rseq.mpr ⟨c₁, r₁, cp ++ (cf ++ c₄), r₄, hA, ?_, rfl⟩
  refine mem_rseq.mpr ⟨cp, rp, cf ++ c₄, r₄, hP, ?_, rfl⟩
  refine mem_rseq.mpr ⟨cf, r₃, c₄, r₄, hF, ?_, rfl⟩
  refine mem_rchar.mpr ⟨ch2, cs2, hr₃, ?_, hq₂⟩
  rw [eq_of_beq hat]
  rfl

/-- A twine match is at least two characters long. -/
theorem twineP_ne_nil {s c r : Str} (h : (c, r) ∈ twineP s) : c ≠ [] := by
  obtain ⟨_, mid, rfl, _⟩ := shape_twineP h
  simp

theorem nonNumberedP_ne_nil {s c r : Str} (h : (c, r) ∈ nonNumberedP s) :
    c ≠ [] := by
  obtain ⟨_, body, ty, rfl, _⟩ := shape_nonNumberedP h
  simp

/-- A fragment whose head test fails cannot match `%`-initial patterns. -/
theorem twineP_nil : twineP [] = [] := rfl

theorem twineP_cons_ne {c : Char} {t : Str} (hc : c ≠ '%') :
    twineP (c :: t) = [] := by
  rcases he : twineP (c :: t) with _ | ⟨⟨cm, rm⟩, _⟩
  · rfl
  · exfalso
    have hm : (cm, rm) ∈ twineP (c :: t) := by rw [he]; simp
    obtain ⟨hwf, mid, hc', _⟩ := shape_twineP hm
    rw [hc'] at hwf
    injection hwf with e _
    exact hc e

/-! ### Facts about `findFrom`, `findIter` and `replaceAllGo` -/

theorem findFrom_eq_none {p : RP} {s : Str} (h : findFrom p s = none) :
    ∀ t, t <:+ s → p t = [] := by
  induction s with
  | nil =>
    intro t ht
    rw [List.suffix_nil.mp ht]
    simp only [findFrom, Option.map_eq_none'] at h
    exact List.head?_eq_none_iff.mp h
  | cons c cs ih =>
    cases hp : (p (c :: cs)).head? with
    | some q => simp [findFrom, hp] at h
    | none =>
      simp only [findFrom, hp, Option.map_eq_none'] at h
      intro t ht
      rcases List.suffix_cons_iff.mp ht with rfl | ht
      · exact List.head?_eq_none_iff.mp hp
      · exact ih h t ht

theorem findFrom_eq_some {p : RP} {s a m r : Str} (wp : WFp p)
    (h : findFrom p s = some (a, m, r)) :
    s = a ++ m ++ r ∧ (m, r) ∈ p (m ++ r) ∧
      ∀ t, t <:+ s → (m ++ r).length < t.length → p t = [] := by
  induction s generalizing a with
  | nil =>
    simp only [findFrom, Option.map_eq_some'] at h
    obtain ⟨⟨q1, q2⟩, hq, he⟩ := h
    injection he with e1 he
    injection he with e2 e3
    subst e1
    dsimp only at e2 e3
    rw [e2, e3] at hq
    have hmem : (m, r) ∈ p [] := List.mem_of_mem_head? hq
    have hh : m ++ r = [] := wp [] (m, r) hmem
    refine ⟨by simp [← hh], by rwa [hh], ?_⟩
    intro t ht hlt
    rw [List.suffix_nil.mp ht] at hlt
    simp [hh] at hlt
  | cons c cs ih =>
    cases hp : (p (c :: cs)).head? with
    | some q =>
      rcases q with ⟨q1, q2⟩
      simp only [findFrom, hp, Option.some.injEq] at h
      injection h with e1 he
      injection he with e2 e3
      subst e1
      rw [e2, e3] at hp
      have hmem : (m, r) ∈ p (c :: cs) := List.mem_of_mem_head? hp
      have hwq : m ++ r = c :: cs := wp _ (m, r) hmem
      refine ⟨by simp [← hwq], by rwa [hwq], ?_⟩
      intro t ht hlt
      exfalso
      have := ht.length_le
      rw [← hwq] at this
      simp only [List.length_append] at this hlt
      omega
    | none =>
      simp only [findFrom, hp, Option.map_eq_some'] at h
      obtain ⟨⟨a', m', r'⟩, hrec, he⟩ := h
      injection he with e1 he
      injection he with e2 e3
      subst e2; subst e3
      obtain ⟨h1, h2, h3⟩ := ih hrec
      subst h1
      refine ⟨by rw [← e1]; simp, h2, ?_⟩
      intro t ht hlt
      rcases List.suffix_cons_iff.mp ht with rfl | ht
      · exact List.head?_eq_none_iff.mp hp
      · exact h3 t ht hlt

theorem suffix_append_cases {t u v : Str} (h : t <:+ u ++ v) :
    t <:+ v ∨ ∃ u', u' <:+ u ∧ u' ≠ [] ∧ t = u' ++ v := by
  induction u with
  | nil => left; simpa using h
  | cons c cs ih =>
    rw [List.cons_append] at h
    rcases List.suffix_cons_iff.mp h with rfl | h
    · right
      exact ⟨c :: cs, List.suffix_rfl, by simp, by simp⟩
    · rcases ih h with h' | ⟨u', h1, h2, h3⟩
      · exact Or.inl h'
      · exact Or.inr ⟨u', h1.trans (List.suffix_cons _ _), h2, h3⟩

/-- Two texts that consist of a run of mid-class characters followed by a
non-mid-class character differ whenever those two characters differ. -/
theorem midRun_ne {m₁ m₂ : Str} {y₁ y₂ : Char} {r₁ r₂ : Str}
    (h₁ : ∀ x ∈ m₁, midOK x = true) (h₂ : ∀ x ∈ m₂, midOK x = true)
    (hy₁ : midOK y₁ = false) (hy₂ : midOK y₂ = false) (hne : y₁ ≠ y₂) :
    m₁ ++ y₁ :: r₁ ≠ m₂ ++ y₂ :: r₂ := by
  induction m₁ generalizing m₂ with
  | nil =>
    cases m₂ with
    | nil =>
      intro e
      injection e with e1 _
      exact hne e1
    | cons x xs =>
      intro e
      injection e with e1 _
      rw [e1] at hy₁
      rw [h₂ x (by simp)] at hy₁
      simp at hy₁
  | cons z zs ih =>
    cases m₂ with
    | nil =>
      intro e
      injection e with e1 _
      rw [← e1] at hy₂
      rw [h₁ z (by simp)] at hy₂
      simp at hy₂
    | cons x xs =>
      intro e
      injection e with e1 e2
      subst e1
      exact ih (fun w hw => h₁ w (List.mem_cons_of_mem _ hw))
        (fun w hw => h₂ w (List.mem_cons_of_mem _ hw)) e2

theorem replaceAllGo_eq_joinIter {σ : Type} (p : RP) (f : σ → Nat → Str → Str × σ) :
    ∀ fuel st pos s,
      replaceAllGo p f fuel st pos s =
        joinIter f st pos (findIter p fuel s).1 (findIter p fuel s).2 := by
  intro fuel
  induction fuel with
  | zero => intro st pos s; rfl
  | succ n ih =>
    intro st pos s
    cases hf : findFrom p s with
    | none => simp [replaceAllGo, findIter, hf, joinIter]
    | some x =>
      rcases x with ⟨a, m, r⟩
      simp [replaceAllGo, findIter, hf, joinIter, ih]

theorem joinIter_number :
    ∀ (l : List (Str × Str)) (i pos : Nat) (t : Str),
      joinIter (fun i _ m => ('%' :: natChars (i + 1) ++ '$' :: m.tail, i + 1))
          i pos l t =
        numberMatches (i + 1) l t := by
  intro l
  induction l with
  | nil => intro i pos t; rfl
  | cons am rest ih =>
    rcases am with ⟨a, m⟩
    intro i pos t
    simp only [joinIter, numberMatches]
    rw [ih]

/-! ### No `@`-directive survives conversion -/

theorem digitChar_isDigit : ∀ d : Nat, (digitChar d).isDigit = true
  | 0 | 1 | 2 | 3 | 4 | 5 | 6 | 7 | 8 => rfl
  | (_ + 9) => rfl

theorem natCharsGo_digits :
    ∀ fuel n acc, (∀ c ∈ acc, c.isDigit = true) →
      ∀ c ∈ natCharsGo fuel n acc, c.isDigit = true := by
  intro fuel
  induction fuel with
  | zero =>
    intro n acc hacc c hc
    exact hacc c hc
  | succ k ih =>
    intro n acc hacc c hc
    simp only [natCharsGo] at hc
    by_cases h10 : n < 10
    · rw [if_pos h10] at hc
      rcases List.mem_cons.mp hc with rfl | hc
      · exact digitChar_isDigit n
      · exact hacc c hc
    · rw [if_neg h10] at hc
      refine ih (n / 10) _ ?_ c hc
      intro x hx
      rcases List.mem_cons.mp hx with rfl | hx
      · exact digitChar_isDigit _
      · exact hacc x hx

theorem natChars_digits (n : Nat) : ∀ c ∈ natChars n, c.isDigit = true :=
  natCharsGo_digits (n + 1) n [] (by simp)

/-- A twine match of a gap-plus-`%`-boundary context is contained in the gap,
hence persists whatever follows the gap. -/
theorem twine_match_in_gap {x' w : Str} (r' : Str) (hx : x' ≠ [])
    (hm : twineP (x' ++ '%' :: w) ≠ []) : twineP (x' ++ r') ≠ [] := by
  obtain ⟨⟨c, rr⟩, hc⟩ := List.exists_mem_of_ne_nil _ hm
  obtain ⟨hwf, mid, hcs, hmid⟩ := shape_twineP hc
  rcases List.append_eq_append_iff.mp hwf.symm with ⟨d, hd1, hd2⟩ | ⟨c', hc1, hc2⟩
  · -- x' = c ++ d : the match is contained in the gap
    have hc' : (c, d ++ '%' :: w) ∈ twineP (c ++ (d ++ '%' :: w)) := by
      have he2 : c ++ (d ++ '%' :: w) = x' ++ '%' :: w := by
        rw [hd1]; simp
      rw [he2, ← hd2]
      exact hc
    have hext := ext_twineP c (d ++ '%' :: w) (d ++ r') hc'
    have he3 : x' ++ r' = c ++ (d ++ r') := by rw [hd1]; simp
    rw [he3]
    exact List.ne_nil_of_mem hext
  · cases c' with
    | nil =>
      -- c = x' : the match is the whole gap
      rw [List.append_nil] at hc1
      subst hc1
      simp only [List.nil_append] at hc2
      subst hc2
      exact List.ne_nil_of_mem (ext_twineP c ('%' :: w) r' hc)
    | cons y ys =>
      -- the match would cross the `%` boundary: impossible
      exfalso
      injection hc2 with ey er
      subst ey
      cases x' with
      | nil => exact hx rfl
      | cons z zs =>
        rw [hcs] at hc1
        injection hc1 with ez ezs
        have hpm : '%' ∈ zs ++ '%' :: ys := List.mem_append_right _ (by simp)
        have ezs' : mid ++ ['@'] = zs ++ '%' :: ys := ezs
        rw [← ezs'] at hpm
        rcases List.mem_append.mp hpm with hpm | hpm
        · exact absurd (hmid '%' hpm) (by decide)
        · simp at hpm

/-- After a match `%mid@` is rewritten with its final character replaced by
a non-mid, non-`@` character, no twine match can start inside the
replacement. -/
theorem twine_no_match_after_swap {mid out' : Str}
    (hmid : ∀ x ∈ mid, midOK x = true) {swap : Char}
    (hswapmid : midOK swap = false) (hsat : swap ≠ '@') (hsp : swap ≠ '%') :
    ∀ rep', rep' ≠ [] → rep' <:+ '%' :: mid ++ [swap] →
      twineP (rep' ++ out') = [] := by
  intro rep' hne hs
  rcases List.suffix_cons_iff.mp hs with he' | hs
  · -- the whole replacement
    subst he'
    by_contra hnonempty
    obtain ⟨⟨c, rr⟩, hc⟩ := List.exists_mem_of_ne_nil _ hnonempty
    obtain ⟨hwf, mid', hcs, hmid'⟩ := shape_twineP hc
    rw [hcs] at hwf
    simp only [List.append_eq, List.cons_append, List.append_assoc,
      List.singleton_append, List.nil_append] at hwf
    injection hwf with _ htail
    exact midRun_ne hmid hmid' hswapmid (by decide) hsat htail
  · -- a proper suffix: its head is not `%`
    cases rep' with
    | nil => exact absurd rfl hne
    | cons y ys =>
      have hy : y ∈ mid ++ [swap] := hs.subset (by simp)
      have hyne : y ≠ '%' := by
        rcases List.mem_append.mp hy with hy | hy
        · exact midOK_ne_pct y (hmid y hy)
        · simp only [List.mem_singleton] at hy
          subst hy
          exact hsp
      rw [List.cons_append]
      exact twineP_cons_ne hyne

/-- Core preservation: rewriting every twine match `%…@` to `%…s` leaves a
string without any twine match at any offset. -/
theorem conv_no_twine :
    ∀ fuel s pos, s.length ≤ fuel →
      ∀ t, t <:+ replaceAllGo twineP
          (fun _ _ m => (m.dropLast ++ ['s'], ())) fuel () pos s →
        twineP t = [] := by
  intro fuel
  induction fuel with
  | zero =>
    intro s pos hlen t ht
    have hs : s = [] := List.length_eq_zero.mp (Nat.le_zero.mp hlen)
    subst hs
    simp only [replaceAllGo] at ht
    rw [List.suffix_nil.mp ht]
    rfl
  | succ n ih =>
    intro s pos hlen t ht
    cases hf : findFrom twineP s with
    | none =>
      simp only [replaceAllGo, hf] at ht
      exact findFrom_eq_none hf t ht
    | some x =>
      rcases x with ⟨a, m, r⟩
      simp only [replaceAllGo, hf] at ht
      obtain ⟨hseq, hmem, hmin⟩ := findFrom_eq_some wf_twineP hf
      obtain ⟨_, mid, hm, hmid⟩ := shape_twineP hmem
      have hdrop : m.dropLast ++ ['s'] = '%' :: mid ++ ['s'] := by
        rw [hm, show ('%' :: mid ++ ['@'] : Str) = ('%' :: mid) ++ ['@'] by simp,
          List.dropLast_concat]
      have hmne : m ≠ [] := twineP_ne_nil hmem
      have hrlen : r.length ≤ n := by
        have := hlen
        rw [hseq] at this
        simp only [List.length_append] at this
        have hm1 : 1 ≤ m.length := by
          cases m with
          | nil => exact absurd rfl hmne
          | cons _ _ => simp
        omega
      rw [hdrop] at ht
      rcases suffix_append_cases
          (show t <:+ a ++ (('%' :: mid ++ ['s']) ++ replaceAllGo twineP
              (fun _ _ m => (m.dropLast ++ ['s'], ())) n ()
              (pos + a.length + m.length) r)
            from by rwa [← List.append_assoc])
          with hcase | ⟨x', hx'su, hx'ne, rfl⟩
      · rcases suffix_append_cases hcase with hc2 | ⟨rep', hrs, hrne, rfl⟩
        · exact ih r (pos + a.length + m.length) hrlen t hc2
        · exact twine_no_match_after_swap hmid (by decide) (by decide)
            (by decide) rep' hrne hrs
      · by_contra hne3
        have hne2 : twineP (x' ++ '%' ::
            (mid ++ ['s'] ++ replaceAllGo twineP
              (fun _ _ m => (m.dropLast ++ ['s'], ())) n ()
              (pos + a.length + m.length) r)) ≠ [] := by
          rw [show (x' ++ '%' ::
              (mid ++ ['s'] ++ replaceAllGo twineP
                (fun _ _ m => (m.dropLast ++ ['s'], ())) n ()
                (pos + a.length + m.length) r) : Str) =
              x' ++ (('%' :: mid ++ ['s']) ++ replaceAllGo twineP
                (fun _ _ m => (m.dropLast ++ ['s'], ())) n ()
                (pos + a.length + m.length) r) by simp]
          exact hne3
        have hext := twine_match_in_gap (m ++ r) hx'ne hne2
        obtain ⟨u, hu⟩ := hx'su
        have hsuf : x' ++ (m ++ r) <:+ s := by
          refine ⟨u, ?_⟩
          rw [hseq, ← hu]
          simp
        have hlen2 : (m ++ r).length < (x' ++ (m ++ r)).length := by
          simp only [List.length_append]
          cases x' with
          | nil => exact absurd rfl hx'ne
          | cons _ _ => simp
        exact hext (hmin _ hsuf hlen2)

theorem convert_no_twine (s : Str) :
    ∀ t, t <:+ convert_twine_string_placeholder s → twineP t = [] :=
  fun t ht => conv_no_twine s.length s 0 le_rfl t ht

/-- Core preservation for the numbering pass: if the input has no twine
match anywhere, neither has the numbered output. -/
theorem numb_no_twine :
    ∀ fuel s pos i, s.length ≤ fuel → (∀ t, t <:+ s → twineP t = []) →
      ∀ t, t <:+ replaceAllGo nonNumberedP
          (fun i _ m => ('%' :: natChars (i + 1) ++ '$' :: m.tail, i + 1))
          fuel i pos s →
        twineP t = [] := by
  intro fuel
  induction fuel with
  | zero =>
    intro s pos i hlen hINV t ht
    have hs : s = [] := List.length_eq_zero.mp (Nat.le_zero.mp hlen)
    subst hs
    simp only [replaceAllGo] at ht
    rw [List.suffix_nil.mp ht]
    rfl
  | succ n ih =>
    intro s pos i hlen hINV t ht
    cases hf : findFrom nonNumberedP s with
    | none =>
      simp only [replaceAllGo, hf] at ht
      exact hINV t ht
    | some x =>
      rcases x with ⟨a, m, r⟩
      simp only [replaceAllGo, hf] at ht
      obtain ⟨hseq, hmem, _⟩ := findFrom_eq_some wf_nonNumberedP hf
      obtain ⟨_, body, ty, hm, hbody, hty, htw⟩ := shape_nonNumberedP hmem
      have hmr_suf : m ++ r <:+ s := by
        refine ⟨a, ?_⟩
        rw [hseq]
        simp
      have htyat : ty ≠ '@' := by
        intro e
        have := List.ne_nil_of_mem (htw e)
        exact this (hINV (m ++ r) hmr_suf)
      have hmne : m ≠ [] := nonNumberedP_ne_nil hmem
      have hrlen : r.length ≤ n := by
        have := hlen
        rw [hseq] at this
        simp only [List.length_append] at this
        have hm1 : 1 ≤ m.length := by
          cases m with
          | nil => exact absurd rfl hmne
          | cons _ _ => simp
        omega
      have hINVr : ∀ t, t <:+ r → twineP t = [] := by
        intro t htr
        exact hINV t (htr.trans (⟨a ++ m, by rw [hseq]⟩))
      have htail : m.tail = body ++ [ty] := by rw [hm]; rfl
      have hrep : '%' :: natChars (i + 1) ++ '$' :: m.tail =
          '%' :: (natChars (i + 1) ++ '$' :: body) ++ [ty] := by
        rw [htail]
        simp
      have hmid2 : ∀ x ∈ natChars (i + 1) ++ '$' :: body, midOK x = true := by
        intro x hx
        rcases List.mem_append.mp hx with hx | hx
        · exact digit_midOK x (natChars_digits _ x hx)
        · rcases List.mem_cons.mp hx with rfl | hx
          · decide
          · exact fwplOK_midOK x (hbody x hx)
      rw [hrep] at ht
      rcases suffix_append_cases
          (show t <:+ a ++ (('%' :: (natChars (i + 1) ++ '$' :: body) ++ [ty]) ++
              replaceAllGo nonNumberedP
                (fun i _ m => ('%' :: natChars (i + 1) ++ '$' :: m.tail, i + 1))
                n (i + 1) (pos + a.length + m.length) r)
            from by rwa [← List.append_assoc])
          with hcase | ⟨x', hx'su, hx'ne, rfl⟩
      · rcases suffix_append_cases hcase with hc2 | ⟨rep', hrs, hrne, rfl⟩
        · exact ih r (pos + a.length + m.length) (i + 1) hrlen hINVr t hc2
        · exact twine_no_match_after_swap hmid2 (typeChar_not_midOK ty hty)
            htyat (typeChar_ne_pct ty hty) rep' hrne hrs
      · by_contra hne3
        have hne2 : twineP (x' ++ '%' ::
            ((natChars (i + 1) ++ '$' :: body) ++ [ty] ++ replaceAllGo
              nonNumberedP
              (fun i _ m => ('%' :: natChars (i + 1) ++ '$' :: m.tail, i + 1))
              n (i + 1) (pos + a.length + m.length) r)) ≠ [] := by
          rw [show (x' ++ '%' ::
              ((natChars (i + 1) ++ '$' :: body) ++ [ty] ++ replaceAllGo
                nonNumberedP
                (fun i _ m => ('%' :: natChars (i + 1) ++ '$' :: m.tail, i + 1))
                n (i + 1) (pos + a.length + m.length) r) : Str) =
              x' ++ (('%' :: (natChars (i + 1) ++ '$' :: body) ++ [ty]) ++
                replaceAllGo nonNumberedP
                (fun i _ m => ('%' :: natChars (i + 1) ++ '$' :: m.tail, i + 1))
                n (i + 1) (pos + a.length + m.length) r) by simp]
          exact hne3
        have hext := twine_match_in_gap (m ++ r) hx'ne hne2
        have hsuf : x' ++ (m ++ r) <:+ s := by
          obtain ⟨u, hu⟩ := hx'su
          refine ⟨u, ?_⟩
          rw [hseq, ← hu]
          simp
        exact hext (hINV _ hsuf)

theorem numbering_no_twine {s : Str} (hINV : ∀ t, t <:+ s → twineP t = []) :
    ∀ t, t <:+ maybe_add_positional_numbers s → twineP t = [] := by
  unfold maybe_add_positional_numbers
  by_cases hc : nonNumberedCount s ≤ 1
  · rw [if_pos hc]
    exact hINV
  · rw [if_neg hc]
    exact fun t ht => numb_no_twine s.length s 0 0 le_rfl hINV t ht

/-- No offset of the normalized output admits a twine (`@`-directive)
match: re-scanning the output for `@`-directives yields zero matches. -/
theorem normalize_no_twine (raw : Str) :
    ∀ t, t <:+ normalize_value raw → twineP t = [] := by
  have hbody : normalize_value raw =
      (if (findFrom placeholderP (maybe_replace_single_percent_with_double_percent
            (maybe_escape_characters raw))).isSome
       then maybe_add_positional_numbers (convert_twine_string_placeholder
            (maybe_replace_single_percent_with_double_percent
              (maybe_escape_characters raw)))
       else maybe_replace_single_percent_with_double_percent
            (maybe_escape_characters raw)) := rfl
  rw [hbody]
  by_cases hp : (findFrom placeholderP (maybe_replace_single_percent_with_double_percent
      (maybe_escape_characters raw))).isSome
  · rw [if_pos hp]
    exact numbering_no_twine (convert_no_twine _)
  · rw [if_neg hp]
    intro t ht
    have hnone := Option.not_isSome_iff_eq_none.mp hp
    have hpl := findFrom_eq_none hnone t ht
    rcases he : twineP t with _ | ⟨⟨c, rr⟩, tl⟩
    · rfl
    · exfalso
      have hmem : (c, rr) ∈ twineP t := by rw [he]; simp
      exact twineP_sub_placeholderP hmem hpl

/-! ### Positioned directives never match the numbering pattern -/

/-- A run of flags/width/precision/length characters followed by a type
character can never equal a digit run followed by `$`. -/
theorem fwpl_type_ne_digits_dollar :
    ∀ (body ds : Str) (ty : Char) (rr r : Str),
      (∀ x ∈ body, fwplOK x = true) → (∀ x ∈ ds, x.isDigit = true) →
      isTypeChar ty = true → body ++ ty :: rr ≠ ds ++ '$' :: r := by
  intro body
  induction body with
  | nil =>
    intro ds ty rr r _ hds hty e
    cases ds with
    | nil =>
      injection e with e1 _
      exact typeChar_ne_dollar ty hty e1
    | cons d ds' =>
      injection e with e1 _
      rw [e1] at hty
      have h1 := hds d (by simp)
      rw [typeChar_not_digit d hty] at h1
      exact Bool.noConfusion h1
  | cons b body' ih =>
    intro ds ty rr r hbody hds hty e
    cases ds with
    | nil =>
      injection e with e1 _
      exact fwplOK_ne_dollar b (hbody b (by simp)) e1
    | cons d ds' =>
      injection e with e1 e2
      exact ih ds' ty rr r (fun x hx => hbody x (List.mem_cons_of_mem _ hx))
        (fun x hx => hds x (List.mem_cons_of_mem _ hx)) hty e2

/-- The non-numbered placeholder pattern does not match at a directive that
already carries an explicit positional parameter. -/
theorem nonNumberedP_positioned {ds r : Str} (_hne : ds ≠ [])
    (hds : ∀ c ∈ ds, c.isDigit = true) :
    nonNumberedP ('%' :: ds ++ '$' :: r) = [] := by
  rcases he : nonNumberedP ('%' :: ds ++ '$' :: r) with _ | ⟨⟨c, rr⟩, tl⟩
  · rfl
  exfalso
  have hc : (c, rr) ∈ nonNumberedP ('%' :: ds ++ '$' :: r) := by
    rw [he]; simp
  obtain ⟨hwf, body, ty, hm, hbody, hty, _⟩ := shape_nonNumberedP hc
  rw [hm] at hwf
  simp only [List.cons_append, List.append_assoc, List.singleton_append] at hwf
  injection hwf with _ htail
  exact fwpl_type_ne_digits_dollar body ds ty rr r hbody hds hty htail.symm

/-! ### Claims C1, C4, C9, C7, C2 -/

/-- C1: positional numbering is the identity on strings with at most one
non-numbered directive; with two or more, the matches of the non-numbered
pattern are rewritten left to right with consecutive indices 1, 2, 3, …
injected right after the leading `%` (the spec-level `numberMatches`), every
match starts with `%` and ends with a type character, and a directive that
already carries an explicit positional parameter is never a match of the
rewriting pattern (hence is left untouched and consumes no counter slot). -/
theorem C1_positional_numbering :
    (∀ s : Str, nonNumberedCount s ≤ 1 → maybe_add_positional_numbers s = s) ∧
    (∀ s : Str, 2 ≤ nonNumberedCount s →
      maybe_add_positional_numbers s =
        numberMatches 1 (findIter nonNumberedP s.length s).1
          (findIter nonNumberedP s.length s).2) ∧
    (∀ s c r : Str, (c, r) ∈ nonNumberedP s →
      ∃ body ty, c = '%' :: body ++ [ty] ∧ isTypeChar ty = true) ∧
    (∀ ds r : Str, ds ≠ [] → (∀ c ∈ ds, c.isDigit = true) →
      nonNumberedP ('%' :: ds ++ '$' :: r) = []) := by
  refine ⟨?_, ?_, ?_, ?_⟩
  · intro s h
    unfold maybe_add_positional_numbers
    rw [if_pos h]
  · intro s h
    unfold maybe_add_positional_numbers
    rw [if_neg (by omega)]
    unfold replaceAll
    rw [replaceAllGo_eq_joinIter]
    exact joinIter_number _ 0 0 _
  · intro s c r h
    obtain ⟨_, body, ty, hm, _, hty, _⟩ := shape_nonNumberedP h
    exact ⟨body, ty, hm, hty⟩
  · intro ds r hne hds
    exact nonNumberedP_positioned hne hds

theorem C1_positional_numbering_witness :
    maybe_add_positional_numbers "a %d b".data = "a %d b".data ∧
    maybe_add_positional_numbers "%d %d".data =
      numberMatches 1 (findIter nonNumberedP ("%d %d".data).length "%d %d".data).1
        (findIter nonNumberedP ("%d %d".data).length "%d %d".data).2 ∧
    (∃ body ty, ("%d".data : Str) = '%' :: body ++ [ty] ∧
      isTypeChar ty = true) ∧
    nonNumberedP ('%' :: ['1'] ++ '$' :: ['d']) = [] :=
  ⟨C1_positional_numbering.1 "a %d b".data (by decide),
   C1_positional_numbering.2.1 "%d %d".data (by decide),
   C1_positional_numbering.2.2.1 "%d".data "%d".data [] (by decide),
   C1_positional_numbering.2.2.2 ['1'] ['d'] (by decide) (by decide)⟩

/-- C4: every `@`-directive is rewritten to the same prefix ending in `s`
with all captured groups kept verbatim, and no offset of the normalized
output admits a match of the `@`-directive pattern any more (zero matches
on re-scan).  The two fixture strings of the source behave accordingly. -/
theorem C4_twine_conversion :
    (∀ raw t : Str, t <:+ normalize_value raw → twineP t = []) ∧
    (∀ s c r : Str, (c, r) ∈ twineP s →
      ∃ mid, c = '%' :: mid ++ ['@'] ∧ (∀ x ∈ mid, midOK x = true) ∧
        c.dropLast ++ ['s'] = '%' :: mid ++ ['s']) ∧
    (∀ s : Str, convert_twine_string_placeholder s =
      joinIter (fun _ _ m => (m.dropLast ++ ['s'], ())) () 0
        (findIter twineP s.length s).1 (findIter twineP s.length s).2) ∧
    normalize_value "Lorem %@ ipsum %.2f sir %,d amet %%".data =
      "Lorem %1$s ipsum %2$.2f sir %3$,d amet %%".data ∧
    normalize_value "Lorem %3$@ ipsum %1$.2f sir %2$,d amet".data =
      "Lorem %3$s ipsum %1$.2f sir %2$,d amet".data := by
  refine ⟨normalize_no_twine, ?_, ?_, by decide, by decide⟩
  · intro s c r h
    obtain ⟨_, mid, hm, hmid⟩ := shape_twineP h
    refine ⟨mid, hm, hmid, ?_⟩
    rw [hm, show ('%' :: mid ++ ['@'] : Str) = ('%' :: mid) ++ ['@'] by simp,
      List.dropLast_concat]
  · intro s
    unfold convert_twine_string_placeholder replaceAll
    rw [replaceAllGo_eq_joinIter]

theorem C4_twine_conversion_witness :
    twineP ("%s".data : Str) = [] ∧
    (∃ mid, ("%@".data : Str) = '%' :: mid ++ ['@'] ∧
      (∀ x ∈ mid, midOK x = true) ∧
      ("%@".data : Str).dropLast ++ ['s'] = '%' :: mid ++ ['s']) :=
  ⟨C4_twine_conversion.1 "%@".data "%s".data (by decide),
   C4_twine_conversion.2.1 "%@".data "%@".data [] (by decide)⟩

/-- C9: on `"%1$d %d %d"` the auto-numbering counter skips the explicitly
positioned directive but still starts at 1, so the output carries the
positional index 1 on two different directives. -/
theorem C9_colliding_positional_indices :
    normalize_value "%1$d %d %d".data = "%1$d %1$d %2$d".data ∧
    nonNumberedCount "%1$d %d %d".data = 2 := by
  constructor <;> decide

/-- C7 counterexample: `"x%%y%z"` is the normalized output of `"x%y%z"`,
yet normalizing it again doubles the remaining `%` (its left neighbour was
consumed by the earlier overlapping window match), so normalization is not
idempotent on already-normalized strings. -/
theorem C7_percent_idempotence_counterexample :
    normalize_value "x%y%z".data = "x%%y%z".data ∧
    normalize_value (normalize_value "x%y%z".data) ≠
      normalize_value "x%y%z".data := by
  constructor <;> decide

/-- C7 amended: a second normalization pass is the identity on typical
normalized outputs (e.g. the multi-placeholder fixture of the source), but
it is not idempotent in general: a lone `%` whose left neighbour was
consumed by an earlier overlapping window match escapes the first pass and
is doubled by the second, as on `"x%y%z"`. -/
theorem C7_percent_idempotence_amended :
    normalize_value "x%y%z".data = "x%%y%z".data ∧
    normalize_value "x%%y%z".data = "x%%y%%z".data ∧
    normalize_value (normalize_value "100% Lorem %@ ipsum %.2f 20% sir %d amet 8% and %% untouched, ending with 42%".data) =
      normalize_value "100% Lorem %@ ipsum %.2f 20% sir %d amet 8% and %% untouched, ending with 42%".data := by
  refine ⟨by decide, by decide, by decide⟩

/-- C2 counterexample: in `"%z"` the leading `%` is a literal percent (it
does not start a valid directive and is not part of a `%%` pair), it sits at
the start of the string adjacent to a non-`%` character, yet the
disambiguation step leaves it un-doubled: the context regex has no arm for
a `%` at the start of the haystack followed by more text. -/
theorem C2_percent_disambiguation_counterexample :
    maybe_replace_single_percent_with_double_percent "%z".data = "%z".data ∧
    placeholderP "%z".data = [] ∧
    normalize_value "%z".data = "%z".data := by
  refine ⟨by decide, by decide, by decide⟩

/-- C2 amended: the doubling step doubles a literal `%` exactly when one of
the three window arms matches it — flanked by non-`%` characters, at the
end of the string after a non-`%`, or a haystack that is exactly `"%"` —
and the `%` does not begin a placeholder match; a `%` that begins a valid
directive is kept; but a `%` at the start of the string followed by a
non-`%` character is never doubled, and a `%` whose left neighbour was
consumed by an earlier overlapping window match is also missed (`"x%y%z"`). -/
theorem C2_percent_disambiguation_amended :
    (∀ c : Char, c ≠ '%' →
      maybe_replace_single_percent_with_double_percent ['%', c] = ['%', c]) ∧
    (∀ c : Char, c ≠ '%' →
      maybe_replace_single_percent_with_double_percent [c, '%'] =
        [c, '%', '%']) ∧
    (∀ c₁ c₂ : Char, c₁ ≠ '%' → c₂ ≠ '%' → placeholderP ['%', c₂] = [] →
      maybe_replace_single_percent_with_double_percent [c₁, '%', c₂] =
        [c₁, '%', '%', c₂]) ∧
    (∀ c₁ c₂ : Char, c₁ ≠ '%' → c₂ ≠ '%' → placeholderP ['%', c₂] ≠ [] →
      maybe_replace_single_percent_with_double_percent [c₁, '%', c₂] =
        [c₁, '%', c₂]) ∧
    maybe_replace_single_percent_with_double_percent ['%'] = ['%', '%'] ∧
    maybe_replace_single_percent_with_double_percent "x%y%z".data =
      "x%%y%z".data := by
  refine ⟨?_, ?_, ?_, ?_, by decide, by decide⟩
  · intro c hc
    simp [maybe_replace_single_percent_with_double_percent, replaceAll,
      replaceAllGo, findFrom, singlePercentP, ralt, rseq, rchar, rend,
      bne_iff_ne, hc]
  · intro c hc
    have hip : isPlaceholderAt [c, '%'] 1 = false := rfl
    simp [maybe_replace_single_percent_with_double_percent, replaceAll,
      replaceAllGo, findFrom, singlePercentP, ralt, rseq, rchar, rend,
      bne_iff_ne, hc, percentIdx, doublePct, hip]
  · intro c₁ c₂ hc₁ hc₂ hpl
    have hip : isPlaceholderAt [c₁, '%', c₂] 1 = false := by
      simp [isPlaceholderAt, hpl]
    simp [maybe_replace_single_percent_with_double_percent, replaceAll,
      replaceAllGo, findFrom, singlePercentP, ralt, rseq, rchar, rend,
      bne_iff_ne, hc₁, hc₂, percentIdx, doublePct, hip]
  · intro c₁ c₂ hc₁ hc₂ hpl
    have hip : isPlaceholderAt [c₁, '%', c₂] 1 = true := by
      rcases hq : placeholderP ['%', c₂] with _ | ⟨q, qs⟩
      · exact absurd hq hpl
      · simp [isPlaceholderAt, hq]
    simp [maybe_replace_single_percent_with_double_percent, replaceAll,
      replaceAllGo, findFrom, singlePercentP, ralt, rseq, rchar, rend,
      bne_iff_ne, hc₁, hc₂, percentIdx, hip]

theorem C2_percent_disambiguation_amended_witness :
    maybe_replace_single_percent_with_double_percent ['%', 'z'] =
      ['%', 'z'] ∧
    maybe_replace_single_percent_with_double_percent ['a', '%'] =
      ['a', '%', '%'] ∧
    maybe_replace_single_percent_with_double_percent ['a', '%', 'b'] =
      ['a', '%', '%', 'b'] ∧
    maybe_replace_single_percent_with_double_percent ['a', '%', 'd'] =
      ['a', '%', 'd'] :=
  ⟨C2_percent_disambiguation_amended.1 'z' (by decide),
   C2_percent_disambiguation_amended.2.1 'a' (by decide),
   C2_percent_disambiguation_amended.2.2.1 'a' 'b' (by decide) (by decide)
     (by decide),
   C2_percent_disambiguation_amended.2.2.2.1 'a' 'd' (by decide) (by decide)
     (by decide)⟩

/-! ### Markup escaping: C5 and C10 -/

theorem containsb_of_mem {l : Str} {c : Char} (h : c ∈ l) :
    l.contains c = true := by
  simpa using h

theorem replaceChar_id {tgt : Char} {rep : Str} :
    ∀ s, tgt ∉ s → replaceChar tgt rep s = s := by
  intro s h
  induction s with
  | nil => rfl
  | cons x xs ih =>
    simp only [replaceChar]
    rw [if_neg, ih (fun hm => h (List.mem_cons_of_mem _ hm))]
    intro hb
    exact h (by rw [← eq_of_beq hb]; exact List.mem_cons_self x xs)

theorem count_replaceChar {tgt : Char} {rep : Str} {c : Char}
    (h1 : c ≠ tgt) (h2 : c ∉ rep) :
    ∀ s, (replaceChar tgt rep s).count c = s.count c := by
  intro s
  induction s with
  | nil => rfl
  | cons x xs ih =>
    simp only [replaceChar]
    by_cases hx : (x == tgt) = true
    · rw [if_pos hx, List.count_append, ih, List.count_eq_zero.mpr h2]
      have hxc : ¬x = c := by
        rw [eq_of_beq hx]
        exact fun e => h1 e.symm
      simp [List.count_cons, hxc]
    · rw [if_neg hx]
      simp [List.count_cons, ih]

theorem replaceChar_append (tgt : Char) (rep : Str) :
    ∀ u v, replaceChar tgt rep (u ++ v) =
      replaceChar tgt rep u ++ replaceChar tgt rep v := by
  intro u v
  induction u with
  | nil => rfl
  | cons x xs ih =>
    simp only [List.cons_append, replaceChar]
    split <;> simp [ih]

theorem replaceChar_infix_of_mem {tgt : Char} {rep : Str} :
    ∀ s, tgt ∈ s → rep <:+: replaceChar tgt rep s := by
  intro s h
  induction s with
  | nil => cases h
  | cons x xs ih =>
    simp only [replaceChar]
    by_cases hx : (x == tgt) = true
    · rw [if_pos hx]
      exact ⟨[], replaceChar tgt rep xs, by simp⟩
    · rw [if_neg hx]
      have hmem : tgt ∈ xs := by
        rcases List.mem_cons.mp h with he | hm
        · exfalso
          subst he
          exact hx (by simp)
        · exact hm
      obtain ⟨u, v, he⟩ := ih hmem
      exact ⟨x :: u, v, by rw [← he]; simp⟩

theorem infix_replaceChar_of_not_mem {tgt : Char} {rep u : Str}
    (hu : tgt ∉ u) : ∀ {s : Str}, u <:+: s → u <:+: replaceChar tgt rep s := by
  rintro s ⟨x, y, he⟩
  rw [← he, replaceChar_append, replaceChar_append, replaceChar_id u hu]
  exact ⟨replaceChar tgt rep x, replaceChar tgt rep y, rfl⟩

/-- C5: the escaping step is exactly the composition `&`-replacement first
then `<`-replacement (with the no-allocation shortcut consistent with it:
when neither character occurs the string is returned unchanged), and `>` is
never escaped (its occurrence count is preserved). -/
theorem C5_markup_escaping :
    (∀ s : Str, maybe_escape_characters s =
      replaceChar '<' "&lt;".data (replaceChar '&' "&amp;".data s)) ∧
    (∀ s : Str, ¬('&' ∈ s ∨ '<' ∈ s) → maybe_escape_characters s = s) ∧
    (∀ s : Str, (maybe_escape_characters s).count '>' = s.count '>') ∧
    maybe_escape_characters "<".data = "&lt;".data ∧
    maybe_escape_characters "&<>&".data = "&amp;&lt;>&amp;".data := by
  have hcomp : ∀ s : Str, maybe_escape_characters s =
      replaceChar '<' "&lt;".data (replaceChar '&' "&amp;".data s) := by
    intro s
    unfold maybe_escape_characters
    by_cases hcond : (s.contains '&' || s.contains '<') = true
    · rw [if_pos hcond]
    · rw [if_neg hcond]
      have ha : '&' ∉ s := fun hm => hcond (by simp [hm])
      have hl : '<' ∉ s := fun hm => hcond (by simp [hm])
      rw [replaceChar_id _ ha, replaceChar_id _ hl]
  refine ⟨hcomp, ?_, ?_, by decide, by decide⟩
  · intro s h
    unfold maybe_escape_characters
    rw [if_neg]
    intro hcond
    rcases (Bool.or_eq_true _ _).mp hcond with hc | hc
    · exact h (Or.inl (mem_of_containsb hc))
    · exact h (Or.inr (mem_of_containsb hc))
  · intro s
    rw [hcomp s, count_replaceChar (by decide) (by decide),
      count_replaceChar (by decide) (by decide)]

theorem C5_markup_escaping_witness :
    maybe_escape_characters "abc".data = "abc".data ∧
    maybe_escape_characters "a&b<c".data =
      replaceChar '<' "&lt;".data (replaceChar '&' "&amp;".data "a&b<c".data) :=
  ⟨C5_markup_escaping.2.1 "abc".data (by decide),
   C5_markup_escaping.1 "a&b<c".data⟩

/-- C10: escaping replaces every `&` even inside an existing escape
sequence: any input containing `&` or `<` escapes to an output containing
`&amp;` or `&lt;`, a second pass re-escapes the `&` introduced by the first
(producing `&amp;amp;` or `&amp;lt;`), and concretely the full
normalization sends `"&"` to `"&amp;"` and `"&amp;"` to `"&amp;amp;"`. -/
theorem C10_escaping_not_idempotent :
    (∀ s : Str, '&' ∈ s ∨ '<' ∈ s →
      "&amp;".data <:+: maybe_escape_characters s ∨
      "&lt;".data <:+: maybe_escape_characters s) ∧
    (∀ s : Str, '&' ∈ s ∨ '<' ∈ s →
      "&amp;amp;".data <:+: maybe_escape_characters (maybe_escape_characters s) ∨
      "&amp;lt;".data <:+: maybe_escape_characters (maybe_escape_characters s)) ∧
    parse_localized_string_value "&".data = Except.ok "&amp;".data ∧
    parse_localized_string_value "&amp;".data = Except.ok "&amp;amp;".data := by
  have h1 : ∀ s : Str, '&' ∈ s ∨ '<' ∈ s →
      "&amp;".data <:+: maybe_escape_characters s ∨
      "&lt;".data <:+: maybe_escape_characters s := by
    intro s h
    have hcond : (s.contains '&' || s.contains '<') = true := by
      rcases h with h | h <;> simp [h]
    unfold maybe_escape_characters
    rw [if_pos hcond]
    by_cases ha : '&' ∈ s
    · left
      exact infix_replaceChar_of_not_mem (by decide)
        (replaceChar_infix_of_mem s ha)
    · right
      have hl : '<' ∈ s := by
        rcases h with h | h
        · exact absurd h ha
        · exact h
      rw [replaceChar_id _ ha]
      exact replaceChar_infix_of_mem s hl
  refine ⟨h1, ?_, rfl, rfl⟩
  intro s h
  have hgen : ∀ esc : Str, ∀ pat rep2 : Str, pat <:+: esc →
      '&' ∈ pat → replaceChar '&' "&amp;".data pat = rep2 → '<' ∉ rep2 →
      rep2 <:+: maybe_escape_characters esc := by
    intro esc pat rep2 hinf hamp hrep hlt
    obtain ⟨u, v, he⟩ := hinf
    have hmem : '&' ∈ esc := by
      rw [← he]
      exact List.mem_append_left _ (List.mem_append_right _ hamp)
    have hcond : (esc.contains '&' || esc.contains '<') = true := by
      simp [hmem]
    unfold maybe_escape_characters
    rw [if_pos hcond]
    refine infix_replaceChar_of_not_mem hlt ?_
    rw [← he, replaceChar_append, replaceChar_append, hrep]
    exact ⟨replaceChar '&' "&amp;".data u, replaceChar '&' "&amp;".data v, rfl⟩
  rcases h1 s h with hA | hB
  · exact Or.inl (hgen _ _ _ hA (by decide) rfl (by decide))
  · exact Or.inr (hgen _ _ _ hB (by decide) rfl (by decide))

theorem C10_escaping_not_idempotent_witness :
    ("&amp;".data <:+: maybe_escape_characters "&".data ∨
      "&lt;".data <:+: maybe_escape_characters "&".data) ∧
    ("&amp;amp;".data <:+:
        maybe_escape_characters (maybe_escape_characters "&".data) ∨
      "&amp;lt;".data <:+:
        maybe_escape_characters (maybe_escape_characters "&".data)) :=
  ⟨C10_escaping_not_idempotent.1 "&".data (by decide),
   C10_escaping_not_idempotent.2.1 "&".data (by decide)⟩

/-! ### Plural grouping: C3, C6, C8 -/

theorem psq_nil (loc : Str) : pluralSpecQuantities loc [] = [] := rfl

theorem psq_none (loc tag : Str) (rest : List (Str × Option Str)) :
    pluralSpecQuantities loc ((tag, none) :: rest) =
      pluralSpecQuantities loc rest := by
  cases hsp : split_once ':' tag <;> simp [pluralSpecQuantities, hsp]

theorem psq_skip {tag : Str} (hsp : split_once ':' tag = none)
    (loc sv : Str) (rest : List (Str × Option Str)) :
    pluralSpecQuantities loc ((tag, some sv) :: rest) =
      pluralSpecQuantities loc rest := by
  simp [pluralSpecQuantities, hsp]

theorem psq_cons {tag l q : Str} (hsp : split_once ':' tag = some (l, q))
    (loc sv : Str) (rest : List (Str × Option Str)) :
    pluralSpecQuantities loc ((tag, some sv) :: rest) =
      if l = loc then
        PluralValue.mk q (normalize_value sv) :: pluralSpecQuantities loc rest
      else pluralSpecQuantities loc rest := by
  simp [pluralSpecQuantities, hsp]

theorem fsn_nil (seen : List Str) : firstSeenNew seen [] = [] := rfl

theorem fsn_none (seen : List Str) (tag : Str) (rest : List (Str × Option Str)) :
    firstSeenNew seen ((tag, none) :: rest) = firstSeenNew seen rest := by
  cases hsp : split_once ':' tag <;> simp [firstSeenNew, hsp]

theorem fsn_skip {tag : Str} (hsp : split_once ':' tag = none)
    (seen : List Str) (sv : Str) (rest : List (Str × Option Str)) :
    firstSeenNew seen ((tag, some sv) :: rest) = firstSeenNew seen rest := by
  simp [firstSeenNew, hsp]

theorem fsn_cons {tag l q : Str} (hsp : split_once ':' tag = some (l, q))
    (seen : List Str) (sv : Str) (rest : List (Str × Option Str)) :
    firstSeenNew seen ((tag, some sv) :: rest) =
      if l ∈ seen then firstSeenNew seen rest
      else l :: firstSeenNew (l :: seen) rest := by
  simp [firstSeenNew, hsp]

theorem fsn_congr :
    ∀ (rest : List (Str × Option Str)) (s₁ s₂ : List Str),
      (∀ x, x ∈ s₁ ↔ x ∈ s₂) → firstSeenNew s₁ rest = firstSeenNew s₂ rest := by
  intro rest
  induction rest with
  | nil => intros; rfl
  | cons e rest ih =>
    rcases e with ⟨tag, vopt⟩
    intro s₁ s₂ hiff
    cases vopt with
    | none =>
      rw [fsn_none, fsn_none]
      exact ih _ _ hiff
    | some sv =>
      cases hsp : split_once ':' tag with
      | none =>
        rw [fsn_skip hsp, fsn_skip hsp]
        exact ih _ _ hiff
      | some lq =>
        rcases lq with ⟨l, q⟩
        rw [fsn_cons hsp, fsn_cons hsp]
        by_cases hl : l ∈ s₁
        · rw [if_pos hl, if_pos ((hiff l).mp hl)]
          exact ih _ _ hiff
        · rw [if_neg hl, if_neg (fun h2 => hl ((hiff l).mpr h2))]
          rw [ih (l :: s₁) (l :: s₂) (by intro x; simp [hiff x])]

theorem fsn_not_mem_seen :
    ∀ (rest : List (Str × Option Str)) (seen : List Str),
      ∀ x ∈ firstSeenNew seen rest, x ∉ seen := by
  intro rest
  induction rest with
  | nil => intro seen x hx; cases hx
  | cons e rest ih =>
    rcases e with ⟨tag, vopt⟩
    intro seen x hx
    cases vopt with
    | none =>
      rw [fsn_none] at hx
      exact ih seen x hx
    | some sv =>
      cases hsp : split_once ':' tag with
      | none =>
        rw [fsn_skip hsp] at hx
        exact ih seen x hx
      | some lq =>
        rcases lq with ⟨l, q⟩
        rw [fsn_cons hsp] at hx
        by_cases hl : l ∈ seen
        · rw [if_pos hl] at hx
          exact ih seen x hx
        · rw [if_neg hl] at hx
          rcases List.mem_cons.mp hx with rfl | hx
          · exact hl
          · intro hxs
            exact ih (l :: seen) x hx (List.mem_cons_of_mem _ hxs)

theorem fsn_nodup :
    ∀ (rest : List (Str × Option Str)) (seen : List Str),
      (firstSeenNew seen rest).Nodup := by
  intro rest
  induction rest with
  | nil => intro seen; exact List.nodup_nil
  | cons e rest ih =>
    rcases e with ⟨tag, vopt⟩
    intro seen
    cases vopt with
    | none => rw [fsn_none]; exact ih seen
    | some sv =>
      cases hsp : split_once ':' tag with
      | none => rw [fsn_skip hsp]; exact ih seen
      | some lq =>
        rcases lq with ⟨l, q⟩
        rw [fsn_cons hsp]
        by_cases hl : l ∈ seen
        · rw [if_pos hl]; exact ih seen
        · rw [if_neg hl]
          rw [List.nodup_cons]
          refine ⟨?_, ih (l :: seen)⟩
          intro hmem
          exact fsn_not_mem_seen rest (l :: seen) l hmem (by simp)

theorem upsert_keys (acc : List (Str × LocalizedString)) (loc : Str)
    (pv : PluralValue) :
    (upsert acc loc pv).map (fun e => e.1) =
      if loc ∈ acc.map (fun e => e.1) then acc.map (fun e => e.1)
      else acc.map (fun e => e.1) ++ [loc] := by
  induction acc with
  | nil => simp [upsert]
  | cons e acc ih =>
    rcases e with ⟨k, L⟩
    by_cases hk : k = loc
    · subst hk
      simp [upsert]
    · rw [show upsert ((k, L) :: acc) loc pv = (k, L) :: upsert acc loc pv from
        by simp [upsert, hk]]
      simp only [List.map_cons, ih]
      have hiff : (loc ∈ k :: acc.map (fun e => e.1)) ↔
          loc ∈ acc.map (fun e => e.1) := by
        constructor
        · intro h
          rcases List.mem_cons.mp h with he | he
          · exact absurd he.symm hk
          · exact he
        · exact fun h => List.mem_cons_of_mem _ h
      by_cases hmem : loc ∈ acc.map (fun e => e.1)
      · rw [if_pos hmem, if_pos (hiff.mpr hmem)]
      · rw [if_neg hmem, if_neg (fun h => hmem (hiff.mp h))]
        simp

theorem upsert_not_found {acc : List (Str × LocalizedString)} {loc : Str}
    {pv : PluralValue} (h : loc ∉ acc.map (fun e => e.1)) :
    upsert acc loc pv =
      acc ++ [(loc, LocalizedString.mk loc (StringValue.Plural [pv]))] := by
  induction acc with
  | nil => simp [upsert, pushQuantity]
  | cons e acc ih =>
    rcases e with ⟨k, L⟩
    have hk : k ≠ loc := by
      intro e
      exact h (by simp [e])
    simp only [upsert, if_neg hk, List.cons_append]
    rw [ih (fun hm => h (List.mem_cons_of_mem _ hm))]

theorem upsert_shape {acc : List (Str × LocalizedString)} {loc : Str}
    {pv : PluralValue} (h : accShape acc) : accShape (upsert acc loc pv) := by
  induction acc with
  | nil =>
    rintro e he
    simp only [upsert, List.mem_singleton] at he
    exact ⟨[pv], by rw [he]; rfl⟩
  | cons e0 acc ih =>
    rcases e0 with ⟨k, L⟩
    by_cases hk : k = loc
    · subst hk
      rintro e he
      rw [show upsert ((k, L) :: acc) k pv = (k, pushQuantity L pv) :: acc from
        by simp [upsert]] at he
      rcases List.mem_cons.mp he with rfl | he
      · obtain ⟨qs, hL⟩ := h (k, L) (by simp)
        simp only at hL
        subst hL
        exact ⟨qs ++ [pv], rfl⟩
      · exact h e (List.mem_cons_of_mem _ he)
    · rintro e he
      rw [show upsert ((k, L) :: acc) loc pv = (k, L) :: upsert acc loc pv from
        by simp [upsert, hk]] at he
      rcases List.mem_cons.mp he with rfl | he
      · exact h (k, L) (by simp)
      · exact ih (fun e' he' => h e' (List.mem_cons_of_mem _ he')) e he

theorem upsert_nodup {acc : List (Str × LocalizedString)} {loc : Str}
    {pv : PluralValue} (h : (acc.map (fun e => e.1)).Nodup) :
    ((upsert acc loc pv).map (fun e => e.1)).Nodup := by
  rw [upsert_keys]
  by_cases hmem : loc ∈ acc.map (fun e => e.1)
  · rwa [if_pos hmem]
  · rw [if_neg hmem]
    rw [List.nodup_append]
    refine ⟨h, List.nodup_singleton loc, ?_⟩
    intro a ha
    simp only [List.mem_singleton]
    intro e
    rw [e] at ha
    exact hmem ha

theorem upsert_map_found :
    ∀ (acc : List (Str × LocalizedString)) (loc : Str) (pv : PluralValue)
      (rest : List (Str × Option Str)),
      accShape acc → (acc.map (fun e => e.1)).Nodup →
      loc ∈ acc.map (fun e => e.1) →
      (upsert acc loc pv).map
          (fun e => (e.1, appendQuantities e.2 (pluralSpecQuantities e.1 rest))) =
        acc.map (fun e => (e.1, appendQuantities e.2
          (if loc = e.1 then pv :: pluralSpecQuantities e.1 rest
           else pluralSpecQuantities e.1 rest))) := by
  intro acc
  induction acc with
  | nil =>
    intro loc pv Qr _ _ h
    simp at h
  | cons e0 acc ih =>
    rcases e0 with ⟨k, L⟩
    intro loc pv Qr hshape hnodup hmem
    by_cases hk : k = loc
    · subst hk
      obtain ⟨qs, hL⟩ := hshape (k, L) (by simp)
      simp only at hL
      subst hL
      rw [show upsert ((k, LocalizedString.mk k (StringValue.Plural qs)) :: acc)
          k pv =
          (k, pushQuantity (LocalizedString.mk k (StringValue.Plural qs)) pv)
            :: acc from by simp [upsert]]
      simp only [List.map_cons]
      congr 1
      · simp [pushQuantity, appendQuantities]
      · have hnot : k ∉ acc.map (fun e => e.1) := by
          rw [List.map_cons, List.nodup_cons] at hnodup
          exact hnodup.1
        apply List.map_congr_left
        intro e he
        have hne : ¬k = e.1 := by
          intro ee
          exact hnot (by rw [ee]; exact List.mem_map_of_mem (fun e => e.1) he)
        rw [if_neg hne]
    · have hmem' : loc ∈ acc.map (fun e => e.1) := by
        rcases List.mem_cons.mp hmem with he | he
        · exact absurd he.symm hk
        · exact he
      rw [show upsert ((k, L) :: acc) loc pv = (k, L) :: upsert acc loc pv from
        by simp [upsert, hk]]
      simp only [List.map_cons]
      congr 1
      · rw [if_neg (fun e => hk e.symm)]
      · exact ih loc pv Qr
          (fun e' he' => hshape e' (List.mem_cons_of_mem _ he'))
          (by rw [List.map_cons, List.nodup_cons] at hnodup; exact hnodup.2)
          hmem'

/-- The plural grouping loop, characterized: existing accumulator entries
receive their remaining quantities in source order, and the new locales are
appended in first-seen order with their quantities in source order. -/
theorem pluralGo_spec :
    ∀ (rest : List (Str × Option Str)) (acc : List (Str × LocalizedString)),
      accShape acc → (acc.map (fun e => e.1)).Nodup →
      pluralGo rest acc = Except.ok
        (acc.map (fun e =>
            (e.1, appendQuantities e.2 (pluralSpecQuantities e.1 rest))) ++
          (firstSeenNew (acc.map (fun e => e.1)) rest).map
            (fun loc => (loc, LocalizedString.mk loc
              (StringValue.Plural (pluralSpecQuantities loc rest))))) := by
  intro rest
  induction rest with
  | nil =>
    intro acc hshape _
    have hid : acc.map (fun e =>
        (e.1, appendQuantities e.2 (pluralSpecQuantities e.1 []))) = acc := by
      have hpt : ∀ e ∈ acc,
          (e.1, appendQuantities e.2 (pluralSpecQuantities e.1 [])) = e := by
        intro e he
        obtain ⟨qs, hL⟩ := hshape e he
        rw [psq_nil, hL]
        simp only [appendQuantities, List.append_nil]
        rw [← hL]
      rw [List.map_congr_left hpt, List.map_id']
    rw [show pluralGo [] acc = Except.ok acc from rfl, fsn_nil, List.map_nil,
      List.append_nil, hid]
  | cons entry rest ih =>
    rcases entry with ⟨tag, vopt⟩
    intro acc hshape hnodup
    cases vopt with
    | none =>
      rw [show pluralGo ((tag, none) :: rest) acc = pluralGo rest acc from rfl,
        ih acc hshape hnodup]
      simp only [psq_none, fsn_none]
    | some sv =>
      cases hsp : split_once ':' tag with
      | none =>
        rw [show pluralGo ((tag, some sv) :: rest) acc = pluralGo rest acc from
          by simp [pluralGo, hsp], ih acc hshape hnodup]
        simp only [psq_skip hsp, fsn_skip hsp]
      | some lq =>
        rcases lq with ⟨loc, qty⟩
        rw [show pluralGo ((tag, some sv) :: rest) acc =
            pluralGo rest
              (upsert acc loc (PluralValue.mk qty (normalize_value sv))) from
          by simp [pluralGo, hsp, parse_localized_string_value],
          ih _ (upsert_shape hshape) (upsert_nodup hnodup)]
        congr 1
        rw [upsert_keys]
        by_cases hmem : loc ∈ acc.map (fun e => e.1)
        · rw [if_pos hmem,
            upsert_map_found acc loc _ _ hshape hnodup hmem]
          congr 1
          · apply List.map_congr_left
            intro e he
            rw [psq_cons hsp]
          · rw [fsn_cons hsp, if_pos hmem]
            apply List.map_congr_left
            intro l hl
            rw [psq_cons hsp]
            have hne : ¬loc = l := by
              intro e
              exact (fsn_not_mem_seen rest _ l hl) (e ▸ hmem)
            rw [if_neg hne]
        · rw [if_neg hmem, upsert_not_found hmem,
            fsn_congr rest (acc.map (fun e => e.1) ++ [loc])
              (loc :: acc.map (fun e => e.1)) (by intro x; simp; tauto),
            fsn_cons hsp, if_neg hmem, List.map_append, List.map_singleton,
            List.map_cons]
          have hacc : acc.map (fun e =>
              (e.1, appendQuantities e.2
                (pluralSpecQuantities e.1 ((tag, some sv) :: rest)))) =
              acc.map (fun e =>
                (e.1, appendQuantities e.2 (pluralSpecQuantities e.1 rest))) := by
            apply List.map_congr_left
            intro e he
            rw [psq_cons hsp]
            have hne : ¬loc = e.1 := fun ee =>
              hmem (by rw [ee]; exact List.mem_map_of_mem (fun e => e.1) he)
            rw [if_neg hne]
          have hnew : (firstSeenNew (loc :: acc.map (fun e => e.1)) rest).map
              (fun l => (l, LocalizedString.mk l (StringValue.Plural
                (pluralSpecQuantities l ((tag, some sv) :: rest))))) =
              (firstSeenNew (loc :: acc.map (fun e => e.1)) rest).map
              (fun l => (l, LocalizedString.mk l (StringValue.Plural
                (pluralSpecQuantities l rest)))) := by
            apply List.map_congr_left
            intro l hl
            rw [psq_cons hsp]
            have hne : ¬loc = l := fun e =>
              (fsn_not_mem_seen rest _ l hl) (by rw [← e]; simp)
            rw [if_neg hne]
          have hhd : pluralSpecQuantities loc ((tag, some sv) :: rest) =
              PluralValue.mk qty (normalize_value sv) ::
                pluralSpecQuantities loc rest := by
            rw [psq_cons hsp, if_pos rfl]
          rw [hacc, hnew, hhd]
          simp [appendQuantities]

theorem plural_build_eq (name : Str) (raw : List (Str × Option Str)) :
    key_from_locale_plural_value_map name raw =
      Except.ok (Key.mk name (pluralSpec raw)) := by
  unfold key_from_locale_plural_value_map
  rw [pluralGo_spec raw [] (by rintro e he; cases he) (by simp)]
  simp [pluralSpec, Except.map, List.map_map, Function.comp]

theorem singleGo_eq : ∀ raw, singleGo raw = Except.ok (singleSpec raw) := by
  intro raw
  induction raw with
  | nil => rfl
  | cons e rest ih =>
    rcases e with ⟨loc, vopt⟩
    cases vopt with
    | none => simp [singleGo, singleSpec, List.filterMap_cons, ih]
    | some sv =>
      simp [singleGo, parse_localized_string_value, ih, singleSpec,
        List.filterMap_cons]

theorem single_build_eq (name : Str) (raw : List (Str × Option Str)) :
    key_from_locale_single_value_map name raw =
      Except.ok (Key.mk name (singleSpec raw)) := by
  unfold key_from_locale_single_value_map
  rw [singleGo_eq]
  rfl

theorem pluralGo_filter :
    ∀ (raw : List (Str × Option Str)) (acc : List (Str × LocalizedString)),
      pluralGo (raw.filter keepPlural) acc = pluralGo raw acc := by
  intro raw
  induction raw with
  | nil => intro acc; rfl
  | cons e rest ih =>
    rcases e with ⟨tag, vopt⟩
    intro acc
    cases vopt with
    | none =>
      rw [show List.filter keepPlural ((tag, none) :: rest) =
          List.filter keepPlural rest from by simp [List.filter_cons, keepPlural]]
      rw [show pluralGo ((tag, none) :: rest) acc = pluralGo rest acc from rfl]
      exact ih acc
    | some sv =>
      cases hsp : split_once ':' tag with
      | none =>
        rw [show List.filter keepPlural ((tag, some sv) :: rest) =
            List.filter keepPlural rest from
          by simp [List.filter_cons, keepPlural, hsp]]
        rw [show pluralGo ((tag, some sv) :: rest) acc = pluralGo rest acc from
          by simp [pluralGo, hsp]]
        exact ih acc
      | some lq =>
        rcases lq with ⟨loc, qty⟩
        rw [show List.filter keepPlural ((tag, some sv) :: rest) =
            (tag, some sv) :: List.filter keepPlural rest from
          by simp [List.filter_cons, keepPlural, hsp]]
        rw [show pluralGo ((tag, some sv) :: List.filter keepPlural rest) acc =
            pluralGo (List.filter keepPlural rest)
              (upsert acc loc (PluralValue.mk qty (normalize_value sv))) from
          by simp [pluralGo, hsp, parse_localized_string_value]]
        rw [show pluralGo ((tag, some sv) :: rest) acc =
            pluralGo rest
              (upsert acc loc (PluralValue.mk qty (normalize_value sv))) from
          by simp [pluralGo, hsp, parse_localized_string_value]]
        exact ih _

theorem singleGo_filter :
    ∀ raw : List (Str × Option Str),
      singleGo (raw.filter keepSingle) = singleGo raw := by
  intro raw
  induction raw with
  | nil => rfl
  | cons e rest ih =>
    rcases e with ⟨loc, vopt⟩
    cases vopt with
    | none =>
      rw [show List.filter keepSingle ((loc, none) :: rest) =
          List.filter keepSingle rest from by simp [List.filter_cons, keepSingle]]
      rw [show singleGo ((loc, none) :: rest) = singleGo rest from rfl]
      exact ih
    | some sv =>
      rw [show List.filter keepSingle ((loc, some sv) :: rest) =
          (loc, some sv) :: List.filter keepSingle rest from
        by simp [List.filter_cons, keepSingle]]
      simp [singleGo, parse_localized_string_value, ih]

/-- C3: plural construction yields exactly one localized string per
distinct locale (the first-seen list is duplicate-free), ordered by first
appearance among the compound tags, each carrying that locale's quantities
in the tags' original order — and concretely a key with tags `en:one`,
`en:many`, `ru:one` yields `en` before `ru` with quantities in order. -/
theorem C3_plural_grouping :
    (∀ (name : Str) (raw : List (Str × Option Str)),
      key_from_locale_plural_value_map name raw =
        Except.ok (Key.mk name (pluralSpec raw))) ∧
    (∀ raw : List (Str × Option Str), (firstSeenNew [] raw).Nodup) ∧
    key_from_locale_value_map "receipt_example".data
      [("en:one".data, some "%d ruble %d bear and 1 vodka".data),
       ("en:many".data, some "%d rubles %d bears and 1 vodka".data),
       ("ru:one".data, some "%d rouble %d bear and 1 vodka".data)] =
      Except.ok (Key.mk "receipt_example".data
        [LocalizedString.mk "en".data (StringValue.Plural
          [PluralValue.mk "one".data "%1$d ruble %2$d bear and 1 vodka".data,
           PluralValue.mk "many".data
             "%1$d rubles %2$d bears and 1 vodka".data]),
         LocalizedString.mk "ru".data (StringValue.Plural
          [PluralValue.mk "one".data
             "%1$d rouble %2$d bear and 1 vodka".data])]) :=
  ⟨plural_build_eq, fun raw => fsn_nodup raw [], by rfl⟩

/-- C6: building a key always returns `Ok`; simple keys keep exactly the
entries with a value (in order, normalized); and for either key kind,
dropping the unusable entries beforehand (absent value, or unsplittable
compound tag for plural keys) does not change the result — the dropped
entries never contribute, the others are still processed. -/
theorem C6_drop_semantics :
    (∀ (name : Str) (raw : List (Str × Option Str)),
      ∃ k, key_from_locale_value_map name raw = Except.ok k) ∧
    (∀ (name : Str) (raw : List (Str × Option Str)),
      key_from_locale_single_value_map name raw =
        Except.ok (Key.mk name (singleSpec raw))) ∧
    (∀ (name : Str) (raw : List (Str × Option Str)),
      key_from_locale_plural_value_map name (raw.filter keepPlural) =
        key_from_locale_plural_value_map name raw) ∧
    (∀ (name : Str) (raw : List (Str × Option Str)),
      key_from_locale_single_value_map name (raw.filter keepSingle) =
        key_from_locale_single_value_map name raw) := by
  refine ⟨?_, single_build_eq, ?_, ?_⟩
  · intro name raw
    unfold key_from_locale_value_map
    by_cases hc : raw.any (fun e => e.1.contains ':') = true
    · rw [if_pos hc, plural_build_eq]
      exact ⟨_, rfl⟩
    · rw [if_neg hc, single_build_eq]
      exact ⟨_, rfl⟩
  · intro name raw
    unfold key_from_locale_plural_value_map
    rw [pluralGo_filter]
  · intro name raw
    unfold key_from_locale_single_value_map
    rw [singleGo_filter]

/-- C8: a key is routed to plural construction iff some raw locale tag
contains `':'`; all localizations of a plural-built key are `Plural` and
all localizations of a simple-built key are `Single` — a key never mixes
the two shapes. -/
theorem C8_plural_classification :
    ∀ (name : Str) (raw : List (Str × Option Str)),
      (raw.any (fun e => e.1.contains ':') = true →
        key_from_locale_value_map name raw =
          key_from_locale_plural_value_map name raw ∧
        ∀ k, key_from_locale_value_map name raw = Except.ok k →
          ∀ L ∈ k.localizations, ∃ qs, L.value = StringValue.Plural qs) ∧
      (raw.any (fun e => e.1.contains ':') = false →
        key_from_locale_value_map name raw =
          key_from_locale_single_value_map name raw ∧
        ∀ k, key_from_locale_value_map name raw = Except.ok k →
          ∀ L ∈ k.localizations, ∃ t, L.value = StringValue.Single t) := by
  intro name raw
  constructor
  · intro hc
    have hroute : key_from_locale_value_map name raw =
        key_from_locale_plural_value_map name raw := by
      unfold key_from_locale_value_map
      rw [if_pos hc]
    refine ⟨hroute, ?_⟩
    intro k hk
    rw [hroute, plural_build_eq] at hk
    injection hk with hk
    subst hk
    intro L hL
    simp only [pluralSpec] at hL
    obtain ⟨loc, _, rfl⟩ := List.mem_map.mp hL
    exact ⟨_, rfl⟩
  · intro hc
    have hroute : key_from_locale_value_map name raw =
        key_from_locale_single_value_map name raw := by
      unfold key_from_locale_value_map
      rw [if_neg (by rw [hc]; exact Bool.false_ne_true)]
    refine ⟨hroute, ?_⟩
    intro k hk
    rw [hroute, single_build_eq] at hk
    injection hk with hk
    subst hk
    intro L hL
    simp only [singleSpec] at hL
    obtain ⟨e, _, heq⟩ := List.mem_filterMap.mp hL
    obtain ⟨sv, _, hL2⟩ := Option.map_eq_some'.mp heq
    rw [← hL2]
    exact ⟨_, rfl⟩

theorem C8_plural_classification_witness :
    (key_from_locale_value_map "k".data [("en:one".data, some "a".data)] =
        key_from_locale_plural_value_map "k".data
          [("en:one".data, some "a".data)] ∧
      ∀ k, key_from_locale_value_map "k".data [("en:one".data, some "a".data)] =
          Except.ok k →
        ∀ L ∈ k.localizations, ∃ qs, L.value = StringValue.Plural qs) ∧
    (key_from_locale_value_map "k".data [("en".data, some "a".data)] =
        key_from_locale_single_value_map "k".data [("en".data, some "a".data)] ∧
      ∀ k, key_from_locale_value_map "k".data [("en".data, some "a".data)] =
          Except.ok k →
        ∀ L ∈ k.localizations, ∃ t, L.value = StringValue.Single t) :=
  ⟨(C8_plural_classification "k".data [("en:one".data, some "a".data)]).1
      (by decide),
   (C8_plural_classification "k".data [("en".data, some "a".data)]).2
      (by decide)⟩

end Utas
